import Mathlib

/-!
Verification of the mid-end passes of a small zero-knowledge expression-language
compiler: conditional flattening, static single assignment (SSA) conversion,
ternary lowering over aggregates, dead-code elimination (DCE), and the record
checks of the type checker.  The definitions below are shallow embeddings of the
corresponding Rust source files; spans are dropped throughout (identifier and
type equality in the source is span-insensitive).
-/

namespace LeoMidend

/-- Interned symbols.  A source identifier never contains `$` (a lexer
constraint), and the passes build renamed symbols with
`format!("{}${}", name, id)`.  Splitting such a string at its final `$`
recovers the original pair, so interning is faithfully modelled by a free
constructor: `Sym.dollar s i` stands for the interned string `s ++ "$" ++ i`. -/
inductive Sym where
  | src : String → Sym
  | dollar : Sym → Nat → Sym
deriving DecidableEq, Repr

/-- Rendering of a symbol back to its interned string, used for panic texts. -/
def Sym.render : Sym → String
  | .src s => s
  | .dollar s i => s.render ++ "$" ++ toString i

/-- `Type` of the AST (`leo_ast`), span-free.  `eq_flat` equality is structural.
The element list of `Tuple` is elided: the checks covered here only inspect
whether a type's head constructor is `Tuple`, never its elements. -/
inductive Ty where
  | boolean | address | field | group | scalar
  | u8 | u16 | u32 | u64 | u128
  | i8 | i16 | i32 | i64 | i128
  | named : Sym → Ty
  | tuple : Ty
deriving DecidableEq, Repr

/-- Literal values (`ValueExpression`); only the payloads the claims exercise. -/
inductive Lit where
  | u8lit : Nat → Lit
  | u64lit : Nat → Lit
  | boolLit : Bool → Lit
deriving DecidableEq, Repr

/-- `BinaryOperation` of the AST (the variants targeted by assignment lowering). -/
inductive BinOp where
  | add | sub | mul | div | pow
  | or | and
  | bitOr | bitAnd | bitXor
  | shl | shr | shrSigned
deriving DecidableEq, Repr

/-- `UnaryOperation` of the AST. -/
inductive UnOp where
  | not | negate
deriving DecidableEq, Repr

/-- `AssignOperation`: `rename_statement.rs` matches all fourteen variants;
`reducer.rs` / `reduce.rs` match the first eight (their era of the enum). -/
inductive AssignOp where
  | assign
  | add | sub | mul | div | pow
  | or | and
  | bitOr | bitAnd | bitXor
  | shr | shrSigned | shl
deriving DecidableEq, Repr

/-- `Expression` of the reducer-era AST: `Identifier | Value | Binary | Unary |
Ternary | Call | Err`.  `Call` is omitted: at the stages covered here the passes
treat call expressions as unreachable (`reduce_block` panics on a call
condition, and inlining precedes SSA). -/
inductive Expression where
  | ident : Sym → Expression
  | value : Lit → Expression
  | binary : BinOp → Expression → Expression → Expression
  | unary : UnOp → Expression → Expression
  | ternary : Expression → Expression → Expression → Expression
  | err : Expression
deriving DecidableEq, Repr

/-- `ConsoleFunction`: `Assert | Error | Log` with their argument expressions. -/
inductive ConsoleFunction where
  | assert : Expression → ConsoleFunction
  | error : List Expression → ConsoleFunction
  | log : List Expression → ConsoleFunction
deriving Repr

/-- `Statement` of the AST.  A `Block` is its list of statements (its only other
field is a span); an `Assignee` with empty accesses is its identifier, which is
the only shape the covered passes produce or consume. -/
inductive Statement where
  | ret : Expression → Statement
  | definition : Sym → Ty → Expression → Statement
  | assign : AssignOp → Sym → Expression → Statement
  | conditional : Expression → List Statement → Option Statement → Statement
  | console : ConsoleFunction → Statement
  | block : List Statement → Statement
deriving Repr

/-! ## Static single assignment: rename table and pass state

The pass under `static_single_assignment/` is embedded from `director.rs` and
`reducer.rs` (the coherent reducer-era implementation; `rename_statement.rs` is
the reconstructor draft of the same pass and is embedded separately where it
differs). -/

/-- Modelled from the spec: the pass's `RenameTable` structure itself (file
`rename_table.rs`) is absent from the sources; its shape
`{ parent: Option<Box<RenameTable>>, mapping }` and the operations `update`,
`lookup`, `get_local_names` follow its uses in `reducer.rs` / `director.rs`
and §3 of the specification ("stack-like tree of frames; `lookup` returns the
nearest ancestor's binding").  The mapping is an insertion-ordered `IndexMap`. -/
inductive RenameTable where
  | mk : Option RenameTable → List (Sym × Sym) → RenameTable

/-- The parent frame of a rename-table frame. -/
def RenameTable.parent : RenameTable → Option RenameTable
  | .mk p _ => p

/-- The local (insertion-ordered) mapping of a rename-table frame. -/
def RenameTable.mapping : RenameTable → List (Sym × Sym)
  | .mk _ m => m

/-- `IndexMap::insert`: replace the value in place when the key is present
(keeping its position), otherwise append the new entry. -/
def updateMapping (m : List (Sym × Sym)) (k v : Sym) : List (Sym × Sym) :=
  if m.any (fun p => p.1 == k) then
    m.map (fun p => if p.1 == k then (k, v) else p)
  else m ++ [(k, v)]

/-- `RenameTable::update`: record `old → new` in the current frame. -/
def RenameTable.update : RenameTable → Sym → Sym → RenameTable
  | .mk p m, k, v => .mk p (updateMapping m k v)

/-- Lookup in an insertion-ordered mapping (first entry with the key). -/
def lookupMapping (m : List (Sym × Sym)) (k : Sym) : Option Sym :=
  (m.find? (fun p => p.1 == k)).map (fun p => p.2)

/-- `RenameTable::lookup`: the local binding if present, else the nearest
ancestor's binding. -/
def RenameTable.lookup : RenameTable → Sym → Option Sym
  | .mk p m, k =>
    match lookupMapping m k with
    | some v => some v
    | none =>
      match p with
      | some t => t.lookup k
      | none => none

/-- `RenameTable::get_local_names`: the keys of the local mapping, in insertion
order. -/
def RenameTable.localNames : RenameTable → List Sym
  | .mk _ m => m.map (fun p => p.1)

/-- `IndexSet::union` iteration order: the elements of the first set in order,
then the members of the second set that are not in the first, in order. -/
def unionOrdered (a b : List Sym) : List Sym :=
  a ++ b.filter (fun s => !(a.contains s))

/-- The mutable state of `StaticSingleAssignmentReducer`: the current rename
table, the strictly increasing counter and the φ-assignment accumulator.  The
`is_lhs` flag, which the source sets and unsets around single calls, is passed
as an argument instead. -/
structure SsaState where
  renameTable : RenameTable
  counter : Nat
  phiFunctions : List Statement

/-- `get_unique_id`: increments the counter and returns its previous value, so
every invocation returns a fresh value. -/
def getUniqueId (s : SsaState) : Nat × SsaState :=
  (s.counter, { s with counter := s.counter + 1 })

/-- `push`: enter a child frame whose parent is the current frame. -/
def ssaPush (s : SsaState) : SsaState :=
  { s with renameTable := .mk (some s.renameTable) [] }

/-- `pop`: return the popped child frame (its parent link intact, as in the
source, which clones the parent and moves the child out) and restore the
parent as the current frame; `unwrap` panics when there is no parent. -/
def ssaPop (s : SsaState) : Except String (RenameTable × SsaState) :=
  match s.renameTable with
  | .mk none _ => .error "pop: RenameTable has no parent"
  | .mk (some p) m => .ok (.mk (some p) m, { s with renameTable := p })

/-- `reduce_identifier` (`reducer.rs` lines 73–97): on the left-hand side of a
definition or assignment a fresh `name$counter` is created and recorded in the
current frame; otherwise the nearest binding is looked up, a missing binding
being the source's `panic!`. -/
def reduceIdentifier (isLhs : Bool) (x : Sym) (s : SsaState) :
    Except String (Sym × SsaState) :=
  if isLhs then
    let (i, s1) := getUniqueId s
    let newName := Sym.dollar x i
    .ok (newName, { s1 with renameTable := s1.renameTable.update x newName })
  else
    match s.renameTable.lookup x with
    | none =>
      .error ("Error: A unique name for the variable " ++ x.render ++ " is not defined.")
    | some n => .ok (n, s)

/-- `reduce_expression` (the director's dispatch): identifiers are renamed via
`reduce_identifier` with `is_lhs` unset, all other nodes are rebuilt from their
reduced children. -/
def reduceExpression : Expression → SsaState → Except String (Expression × SsaState)
  | .ident x, s =>
    match reduceIdentifier false x s with
    | .error e => .error e
    | .ok (x1, s1) => .ok (.ident x1, s1)
  | .value v, s => .ok (.value v, s)
  | .binary op l r, s =>
    match reduceExpression l s with
    | .error e => .error e
    | .ok (l1, s1) =>
      match reduceExpression r s1 with
      | .error e => .error e
      | .ok (r1, s2) => .ok (.binary op l1 r1, s2)
  | .unary op e, s =>
    match reduceExpression e s with
    | .error e1 => .error e1
    | .ok (e1, s1) => .ok (.unary op e1, s1)
  | .ternary c t f, s =>
    match reduceExpression c s with
    | .error e => .error e
    | .ok (c1, s1) =>
      match reduceExpression t s1 with
      | .error e => .error e
      | .ok (t1, s2) =>
        match reduceExpression f s2 with
        | .error e => .error e
        | .ok (f1, s3) => .ok (.ternary c1 t1 f1, s3)
  | .err, s => .ok (.err, s)

/-- Reduction of an expression list (console arguments). -/
def reduceExpressionList : List Expression → SsaState → Except String (List Expression × SsaState)
  | [], s => .ok ([], s)
  | e :: rest, s =>
    match reduceExpression e s with
    | .error msg => .error msg
    | .ok (e1, s1) =>
      match reduceExpressionList rest s1 with
      | .error msg => .error msg
      | .ok (rest1, s2) => .ok (e1 :: rest1, s2)

/-- The operator-lowering table of `reconstruct_assign` / `reduce_assign`:
`{Add→+, Sub→-, Mul→*, Div→/, Pow→**, Or→||, And→&&, BitOr→|, BitAnd→&,
BitXor→^, Shl→<<, Shr→>>, ShrSigned→>>>}`; a plain `Assign` is left alone.
(`reducer.rs` matches the first eight variants — its era of the enum —
`rename_statement.rs` all fourteen; the table is the same.) -/
def assignOpToBinary : AssignOp → Option BinOp
  | .assign => none
  | .add => some .add
  | .sub => some .sub
  | .mul => some .mul
  | .div => some .div
  | .pow => some .pow
  | .or => some .or
  | .and => some .and
  | .bitOr => some .bitOr
  | .bitAnd => some .bitAnd
  | .bitXor => some .bitXor
  | .shr => some .shr
  | .shrSigned => some .shrSigned
  | .shl => some .shl

/-- `reduce_assign` (director lines 72–80 then reducer lines 107–141): the
assignee is renamed first (`is_lhs` set), then the value is reduced, and a
compound operation is lowered to `Binary{left: assignee.identifier, right:
value, op}` — the left operand is the (freshly renamed) assignee. -/
def reduceAssignStmt (op : AssignOp) (place : Sym) (value : Expression)
    (s : SsaState) : Except String (Statement × SsaState) :=
  match reduceIdentifier true place s with
  | .error e => .error e
  | .ok (place1, s1) =>
    match reduceExpression value s1 with
    | .error e => .error e
    | .ok (value1, s2) =>
      let newValue :=
        match assignOpToBinary op with
        | none => value1
        | some b => Expression.binary b (.ident place1) value1
      .ok (.assign .assign place1 newValue, s2)

/-- `reduce_definition` (director lines 58–69): rename the defined variable
(`is_lhs` set), then reduce the value.  The statement remains a definition
here; `reduce_block` later rewrites it into an assignment. -/
def reduceDefinitionStmt (x : Sym) (ty : Ty) (value : Expression) (s : SsaState) :
    Except String (Statement × SsaState) :=
  match reduceIdentifier true x s with
  | .error e => .error e
  | .ok (x1, s1) =>
    match reduceExpression value s1 with
    | .error e => .error e
    | .ok (v1, s2) => .ok (.definition x1 ty v1, s2)

/-- The φ-construction loop of `reduce_conditional` (director lines 108–149):
for each symbol of the write-set union, look the symbol up in both popped
frames (a failed lookup is the source's `expect` panic), build the ternary
over the two names, allocate the fresh name `s$counter`, record it in the
current frame and push the φ-assignment onto `phi_functions`. -/
def phiLoop (cond : Expression) (ifTable elseTable : RenameTable) :
    List Sym → SsaState → Except String SsaState
  | [], s => .ok s
  | sym :: rest, s =>
    match ifTable.lookup sym with
    | none => .error ("Symbol " ++ sym.render ++ " should exist in the program.")
    | some ifName =>
      match elseTable.lookup sym with
      | none => .error ("Symbol " ++ sym.render ++ " should exist in the program.")
      | some elseName =>
        let tern := Expression.ternary cond (.ident ifName) (.ident elseName)
        let (i, s1) := getUniqueId s
        let newName := Sym.dollar sym i
        let s2 := { s1 with renameTable := s1.renameTable.update sym newName }
        let assignment := Statement.assign .assign newName tern
        phiLoop cond ifTable elseTable rest
          { s2 with phiFunctions := s2.phiFunctions ++ [assignment] }

/-- Phase two of `reduce_block` (`reducer.rs` lines 150–210), run on the
already-reduced statement list: a definition is rewritten into an assignment;
for a conditional whose condition is a `Binary`, `Unary` or `Ternary`
expression a fresh assignment `cond$k = condition` is pushed first and then
the conditional itself, unchanged; a conditional with an `Identifier` or
`Value` condition is pushed as is; an `Err` condition is the source's
`unreachable!`; every other statement is pushed unchanged. -/
def ssaBlockPhase2 : List Statement → SsaState → Except String (List Statement × SsaState)
  | [], s => .ok ([], s)
  | stmt :: rest, s =>
    match stmt with
    | .definition x _ v =>
      match ssaBlockPhase2 rest s with
      | .error e => .error e
      | .ok (rest1, s1) => .ok (.assign .assign x v :: rest1, s1)
    | .conditional c _ _ =>
      match c with
      | .err => .error "Err expressions should not exist in the AST at this stage of compilation."
      | .ident _ | .value _ =>
        match ssaBlockPhase2 rest s with
        | .error e => .error e
        | .ok (rest1, s1) => .ok (stmt :: rest1, s1)
      | _ =>
        let (i, s1) := getUniqueId s
        let condName := Sym.dollar (Sym.src "cond") i
        match ssaBlockPhase2 rest s1 with
        | .error e => .error e
        | .ok (rest1, s2) => .ok (.assign .assign condName c :: stmt :: rest1, s2)
    | _ =>
      match ssaBlockPhase2 rest s with
      | .error e => .error e
      | .ok (rest1, s1) => .ok (stmt :: rest1, s1)

mutual

/-- `reduce_statement` dispatch of the director.  `Iteration` statements are
already unrolled before this pass and are absent from the embedded AST. -/
def ssaStatement : Statement → SsaState → Except String (Statement × SsaState)
  | .ret e, s =>
    match reduceExpression e s with
    | .error msg => .error msg
    | .ok (e1, s1) => .ok (.ret e1, s1)
  | .definition x ty v, s => reduceDefinitionStmt x ty v s
  | .assign op x v, s => reduceAssignStmt op x v s
  | .conditional cond blk next, s =>
    -- `reduce_conditional` (director lines 83–154).
    match reduceExpression cond s with
    | .error e => .error e
    | .ok (cond1, s1) =>
      match ssaStatementList blk (ssaPush s1) with
      | .error e => .error e
      | .ok (blk0, s2) =>
        match ssaBlockPhase2 blk0 s2 with
        | .error e => .error e
        | .ok (blk1, s2') =>
          match ssaPop s2' with
          | .error e => .error e
          | .ok (ifTable, s3) =>
            match ssaNext next (ssaPush s3) with
            | .error e => .error e
            | .ok (next1, s4) =>
              match ssaPop s4 with
              | .error e => .error e
              | .ok (elseTable, s5) =>
                let writeSet := unionOrdered ifTable.localNames elseTable.localNames
                match phiLoop cond1 ifTable elseTable writeSet s5 with
                | .error e => .error e
                | .ok s6 => .ok (.conditional cond1 blk1 next1, s6)
  | .console (.assert e), s =>
    match reduceExpression e s with
    | .error msg => .error msg
    | .ok (e1, s1) => .ok (.console (.assert e1), s1)
  | .console (.error args), s =>
    match reduceExpressionList args s with
    | .error msg => .error msg
    | .ok (args1, s1) => .ok (.console (.error args1), s1)
  | .console (.log args), s =>
    match reduceExpressionList args s with
    | .error msg => .error msg
    | .ok (args1, s1) => .ok (.console (.log args1), s1)
  | .block stmts, s =>
    match ssaStatementList stmts s with
    | .error e => .error e
    | .ok (stmts1, s1) =>
      match ssaBlockPhase2 stmts1 s1 with
      | .error e => .error e
      | .ok (stmts2, s2) => .ok (.block stmts2, s2)

/-- The `next` (else) arm of a conditional: reduced as a statement when
present. -/
def ssaNext : Option Statement → SsaState → Except String (Option Statement × SsaState)
  | none, s => .ok (none, s)
  | some st, s =>
    match ssaStatement st s with
    | .error e => .error e
    | .ok (st1, s1) => .ok (some st1, s1)

/-- Phase one of `reduce_block` (director lines 156–166): reduce each statement
in order, and after every statement that was a `ConditionalStatement` drain
`phi_functions` (`clear_phi_functions`) into the list right there. -/
def ssaStatementList : List Statement → SsaState → Except String (List Statement × SsaState)
  | [], s => .ok ([], s)
  | stmt :: rest, s =>
    match ssaStatement stmt s with
    | .error e => .error e
    | .ok (stmt1, s1) =>
      let drainedState :=
        match stmt with
        | .conditional _ _ _ => (s1.phiFunctions, { s1 with phiFunctions := [] })
        | _ => ([], s1)
      match ssaStatementList rest drainedState.2 with
      | .error e => .error e
      | .ok (rest1, s3) => .ok (stmt1 :: (drainedState.1 ++ rest1), s3)

end

/-- `reduce_block` of the SSA pass: the director's phase-one loop followed by
the reducer's phase-two rewrite. -/
def ssaBlock (stmts : List Statement) (s : SsaState) :
    Except String (List Statement × SsaState) :=
  match ssaStatementList stmts s with
  | .error e => .error e
  | .ok (stmts1, s1) => ssaBlockPhase2 stmts1 s1

/-- `reduce_conditional` as a standalone entry point. -/
def ssaConditional (cond : Expression) (blk : List Statement)
    (next : Option Statement) (s : SsaState) : Except String (Statement × SsaState) :=
  ssaStatement (.conditional cond blk next) s

/-- `reduce_function` (director lines 171–205): push a frame, seed an identity
binding for every input parameter, reduce the body block, pop the frame. -/
def ssaFunction (params : List Sym) (body : List Statement) (s : SsaState) :
    Except String (List Statement × SsaState) :=
  let s1 := ssaPush s
  let s2 := params.foldl
    (fun acc p => { acc with renameTable := acc.renameTable.update p p }) s1
  match ssaBlock body s2 with
  | .error e => .error e
  | .ok (body1, s3) =>
    match ssaPop s3 with
    | .error e => .error e
    | .ok (_, s4) => .ok (body1, s4)

/-- Running the SSA pass on one function from a fresh state (root table, zero
counter, empty φ-buffer), as `do_pass` does per program. -/
def runSsaFunction (params : List Sym) (body : List Statement) :
    Except String (List Statement) :=
  match ssaFunction params body { renameTable := .mk none [], counter := 0, phiFunctions := [] } with
  | .error e => .error e
  | .ok (body1, _) => .ok body1

/-! ## Concrete programs used by the end-to-end scenarios -/

/-- The symbol `x`. -/
def symX : Sym := .src "x"
/-- The symbol `y`. -/
def symY : Sym := .src "y"
/-- The symbol `z`. -/
def symZ : Sym := .src "z"
/-- The symbol `a`. -/
def symA : Sym := .src "a"
/-- The symbol `b`. -/
def symB : Sym := .src "b"
/-- The symbol `c`. -/
def symC : Sym := .src "c"

/-- Body of `function f(a: u8, b: u8) -> u8 { let x: u8 = a; x += b; return x; }`. -/
def compoundBody : List Statement :=
  [ .definition symX .u8 (.ident symA)
  , .assign .add symX (.ident symB)
  , .ret (.ident symX) ]

/-- Body of `function f(c: bool, a: u8, b: u8) -> u8
    { let x: u8 = 0u8; if c { x = a; } else { x = b; } return x; }`. -/
def phiBody : List Statement :=
  [ .definition symX .u8 (.value (.u8lit 0))
  , .conditional (.ident symC)
      [ .assign .assign symX (.ident symA) ]
      (some (.block [ .assign .assign symX (.ident symB) ]))
  , .ret (.ident symX) ]

/-- Body of `function f(a: bool, b: bool) -> u8
    { let x: u8 = 0u8; if a && b { x = 1u8; } return x; }` — a conditional with
    a non-trivial (binary) condition. -/
def hoistBody : List Statement :=
  [ .definition symX .u8 (.value (.u8lit 0))
  , .conditional (.binary .and (.ident symA) (.ident symB))
      [ .assign .assign symX (.value (.u8lit 1)) ]
      none
  , .ret (.ident symX) ]

/-- Body of `function f(c: bool) -> u8 { if c { let z: u8 = 1u8; } return 0u8; }`
    — `z` is first defined inside one branch and nowhere before. -/
def oneSidedBody : List Statement :=
  [ .conditional (.ident symC)
      [ .definition symZ .u8 (.value (.u8lit 1)) ]
      none
  , .ret (.value (.u8lit 0)) ]

/-- The SSA form of `phiBody` under parameters `(c, a, b)`: definitions became
assignments, each arm writes its own fresh name, the φ-assignment
`x$3 = c ? x$1 : x$2` follows the conditional, and the return reads `x$3`. -/
def phiSsaOut : List Statement :=
  [ .assign .assign (Sym.dollar symX 0) (.value (.u8lit 0))
  , .conditional (.ident symC)
      [ .assign .assign (Sym.dollar symX 1) (.ident symA) ]
      (some (.block [ .assign .assign (Sym.dollar symX 2) (.ident symB) ]))
  , .assign .assign (Sym.dollar symX 3)
      (.ternary (.ident symC) (.ident (Sym.dollar symX 1)) (.ident (Sym.dollar symX 2)))
  , .ret (.ident (Sym.dollar symX 3)) ]

/-! ## Conditional flattening (`flatten_conditionals/`)

Embedded from `reducer.rs` (`FlattenConditionalStatements::reduce_block`)
driven by the default `StatementReducerDirector` of `reducer_director.rs`:
the director reduces every statement bottom-up, then the reducer splices each
top-level conditional of the block.  `flattener.rs` carries the identical
splice for the reconstructor draft. -/

/-- The splice of `reduce_block` (`flatten_conditionals/reducer.rs` lines
46–67): a `Conditional{block, next}` is replaced by `block.statements` followed
by the single statement `*next` when present; every other statement is copied
through.  One pass over the list — there is no fixpoint loop. -/
def flattenSplice : List Statement → List Statement
  | [] => []
  | .conditional _ blk next :: rest =>
    blk ++ (match next with | some st => [st] | none => []) ++ flattenSplice rest
  | s :: rest => s :: flattenSplice rest

mutual

/-- `reduce_statement` for the flattening pass: children are reduced by the
default director; expressions are untouched (the pass overrides nothing for
them). -/
def flattenStatement : Statement → Statement
  | .conditional c blk next =>
    .conditional c (flattenSplice (flattenStatementList blk)) (flattenNext next)
  | .block stmts => .block (flattenSplice (flattenStatementList stmts))
  | s => s

/-- The reduced `next` arm of a conditional. -/
def flattenNext : Option Statement → Option Statement
  | none => none
  | some s => some (flattenStatement s)

/-- The director's per-statement loop of `reduce_block`. -/
def flattenStatementList : List Statement → List Statement
  | [] => []
  | s :: rest => flattenStatement s :: flattenStatementList rest

end

/-- `reduce_block` of the flattening pass: reduce every statement, then splice
the conditionals of this block. -/
def flattenBlock (stmts : List Statement) : List Statement :=
  flattenSplice (flattenStatementList stmts)

mutual

/-- `true` when no `Conditional` statement occurs anywhere in the statement. -/
def condFree : Statement → Bool
  | .conditional _ _ _ => false
  | .block stmts => condFreeList stmts
  | _ => true

/-- `condFree` over a statement list. -/
def condFreeList : List Statement → Bool
  | [] => true
  | s :: rest => condFree s && condFreeList rest

end

mutual

/-- `true` when no `Conditional` statement in sight has a `Conditional` as its
`next` (else) arm — i.e. there are no `else if` chains. -/
def noCondNext : Statement → Bool
  | .conditional _ blk next =>
    (match next with
     | some (.conditional _ _ _) => false
     | some st => noCondNext st
     | none => true) && noCondNextList blk
  | .block stmts => noCondNextList stmts
  | _ => true

/-- `noCondNext` over a statement list. -/
def noCondNextList : List Statement → Bool
  | [] => true
  | s :: rest => noCondNext s && noCondNextList rest

end

/-! ## Dead-code elimination (`dead_code_elimination/`)

Embedded from `director.rs` and `reducer.rs` (the reconstructor files
`eliminate_statement.rs` / `eliminate_expression.rs` carry the identical
logic over the place-based AST). -/

/-- The `DeadCodeEliminator` state: the key set of the `marked` map (only
`true` is ever inserted) and the `is_critical` flag. -/
structure DceState where
  marked : List Sym
  isCritical : Bool

/-- `is_marked`: membership in the marked map (default `false`). -/
def DceState.isMarked (s : DceState) (x : Sym) : Bool := s.marked.contains x

/-- `mark`: insert the symbol (an `IndexMap` re-insert keeps the position, so
the key set is unchanged when the symbol is already marked). -/
def DceState.mark (s : DceState) (x : Sym) : DceState :=
  if s.marked.contains x then s else { s with marked := s.marked ++ [x] }

/-- `set_critical`. -/
def DceState.setCritical (s : DceState) : DceState := { s with isCritical := true }

/-- `unset_critical`. -/
def DceState.unsetCritical (s : DceState) : DceState := { s with isCritical := false }

/-- `reduce_identifier` of DCE with the director's expression dispatch: every
identifier visited while `is_critical` is set is marked; expressions are
otherwise rebuilt unchanged. -/
def dceExpression : Expression → DceState → Expression × DceState
  | .ident x, s => (.ident x, if s.isCritical then s.mark x else s)
  | .value v, s => (.value v, s)
  | .binary op l r, s =>
    let (l1, s1) := dceExpression l s
    let (r1, s2) := dceExpression r s1
    (.binary op l1 r1, s2)
  | .unary op e, s =>
    let (e1, s1) := dceExpression e s
    (.unary op e1, s1)
  | .ternary c t f, s =>
    let (c1, s1) := dceExpression c s
    let (t1, s2) := dceExpression t s1
    let (f1, s3) := dceExpression f s2
    (.ternary c1 t1 f1, s3)
  | .err, s => (.err, s)

/-- DCE reduction of an expression list (console arguments). -/
def dceExpressionList : List Expression → DceState → List Expression × DceState
  | [], s => ([], s)
  | e :: rest, s =>
    let (e1, s1) := dceExpression e s
    let (rest1, s2) := dceExpressionList rest s1
    (e1 :: rest1, s2)

/-- DCE reduction of a console call: all arguments are critical. -/
def dceConsole : ConsoleFunction → DceState → ConsoleFunction × DceState
  | .assert e, s =>
    let (e1, s1) := dceExpression e s
    (.assert e1, s1)
  | .error args, s =>
    let (args1, s1) := dceExpressionList args s
    (.error args1, s1)
  | .log args, s =>
    let (args1, s1) := dceExpressionList args s
    (.log args1, s1)

mutual

/-- `reduce_statement` of DCE (`director.rs` lines 47–97): a return or console
statement sets `is_critical` around its expressions (marking every identifier
in them); an assignment first reduces its assignee, sets `is_critical` only if
the place is already marked, reduces the value and unsets the flag.
`Definition` and `Conditional` statements are passed through here — the block
walk below rejects them as the source's `unreachable!` right after reducing
them (their sub-reduction cannot mark anything, since the flag is unset). -/
def dceStatement : Statement → DceState → Statement × DceState
  | .ret e, s =>
    let (e1, s1) := dceExpression e s.setCritical
    (.ret e1, s1.unsetCritical)
  | .assign op x v, s =>
    let (_, s1) := dceExpression (.ident x) s
    let s2 := if s1.isMarked x then s1.setCritical else s1
    let (v1, s3) := dceExpression v s2
    (.assign op x v1, s3.unsetCritical)
  | .console f, s =>
    let (f1, s1) := dceConsole f s.setCritical
    (.console f1, s1.unsetCritical)
  | .block stmts, s =>
    match dceBlockGo stmts s with
    | .error _ => (.block stmts, s)
    | .ok (stmts1, s1) => (.block stmts1, s1)
  | st, s => (st, s)

/-- The block walk of DCE (`director.rs` lines 99–135): statements are
processed in reverse order (here: the tail — the later statements — first,
which is the source's reversed iteration followed by the final `reverse`);
`Definition`, `Conditional` and `Iteration` are the source's `unreachable!`
panics; returns, console statements and nested blocks are kept; an assignment
is kept exactly when its place is marked when it is visited. -/
def dceBlockGo : List Statement → DceState → Except String (List Statement × DceState)
  | [], s => .ok ([], s)
  | stmt :: rest, s =>
    match dceBlockGo rest s with
    | .error e => .error e
    | .ok (keptRest, s1) =>
      let (stmt1, s2) := dceStatement stmt s1
      match stmt1 with
      | .definition _ _ _ =>
        .error "`DefinitionStatement`s should not exist in the AST at this stage of compilation."
      | .conditional _ _ _ =>
        .error "`ConditionalStatement`s should not exist in the AST at this stage of compilation."
      | .assign _ x _ =>
        .ok ((if s2.isMarked x then stmt1 :: keptRest else keptRest), s2)
      | _ => .ok (stmt1 :: keptRest, s2)

end

/-- Running DCE on a function body from the pass's fresh state. -/
def runDce (body : List Statement) : Except String (List Statement) :=
  match dceBlockGo body { marked := [], isCritical := false } with
  | .error e => .error e
  | .ok (body1, _) => .ok body1

/-- A statement of the flat, post-SSA shape DCE is specified on: a return,
console call or assignment. -/
def flatStmt : Statement → Bool
  | .ret _ => true
  | .console _ => true
  | .assign _ _ _ => true
  | _ => false

/-- The identifiers occurring in an expression. -/
def identsOf : Expression → List Sym
  | .ident x => [x]
  | .value _ => []
  | .binary _ l r => identsOf l ++ identsOf r
  | .unary _ e => identsOf e
  | .ternary c t f => identsOf c ++ identsOf t ++ identsOf f
  | .err => []

/-- The identifiers occurring in a console call's arguments. -/
def identsOfConsole : ConsoleFunction → List Sym
  | .assert e => identsOf e
  | .error args => (args.map identsOf).flatten
  | .log args => (args.map identsOf).flatten

/-- Marking every identifier of an expression, on mark predicates. -/
def markIdents (e : Expression) (m : Sym → Bool) : Sym → Bool :=
  fun y => m y || (identsOf e).contains y

/-- Marking every identifier of a console call, on mark predicates. -/
def markConsole (f : ConsoleFunction) (m : Sym → Bool) : Sym → Bool :=
  fun y => m y || (identsOfConsole f).contains y

/-- The DCE walk exactly as the claim words it, over a flat block: walk the
statements in reverse (the later statements first); keep every `Return` and
`Console`, marking the identifiers of their expressions; keep an assignment
exactly when its place is marked at the moment it is visited, then mark the
identifiers of its value; drop it otherwise; any other statement does not
occur.  The marked set is an abstract predicate. -/
def specDceWalk : List Statement → (Sym → Bool) → Option (List Statement × (Sym → Bool))
  | [], m => some ([], m)
  | stmt :: rest, m =>
    match specDceWalk rest m with
    | none => none
    | some (kept, m1) =>
      match stmt with
      | .ret e => some (.ret e :: kept, markIdents e m1)
      | .console f => some (.console f :: kept, markConsole f m1)
      | .assign op x v =>
        if m1 x then some (.assign op x v :: kept, markIdents v m1) else some (kept, m1)
      | _ => none

/-- Body of `function f(a: u8) -> u8 { let x: u8 = a + 1u8; let y: u8 = x + 2u8;
return a; }` after SSA (definitions became assignments `x$0`, `y$1`). -/
def deadBody : List Statement :=
  [ .assign .assign (Sym.dollar symX 0) (.binary .add (.ident symA) (.value (.u8lit 1)))
  , .assign .assign (Sym.dollar symY 1) (.binary .add (.ident (Sym.dollar symX 0)) (.value (.u8lit 2)))
  , .ret (.ident symA) ]

/-! ## Type checking: record member validation (`type_checking/check_program.rs`) -/

/-- The errors `visit_circuit` can emit. -/
inductive TCErr where
  | duplicateRecordVariable (record : Sym)
  | duplicateCircuitMember (circuit : Sym)
  | requiredRecordVariable (need : Sym) (expected : Ty)
  | recordVarWrongType (memberName : Sym) (expected : Ty)
  | tupleNotAllowed (memberName : Sym)
deriving DecidableEq, Repr

/-- An aggregate declaration (`Circuit`): name, `is_record` flag and the
ordered member list `(name, type)`. -/
structure Circuit where
  name : Sym
  isRecord : Bool
  members : List (Sym × Ty)

/-- The `owner` symbol. -/
def symOwner : Sym := .src "owner"
/-- The `gates` symbol. -/
def symGates : Sym := .src "gates"

/-- `check_has_field` (`check_program.rs` lines 112–132): find the first member
named `need` (`find_map`); when present with the expected type (`eq_flat`,
structural here) nothing is emitted, when present with another type
`RecordVariableWrongType` is emitted, and when absent
`RequiredRecordVariable`. -/
def checkHasField (members : List (Sym × Ty)) (need : Sym) (expectedTy : Ty) :
    List TCErr :=
  match members.find? (fun m => m.1 == need) with
  | some m => if expectedTy == m.2 then [] else [.recordVarWrongType m.1 expectedTy]
  | none => [.requiredRecordVariable need expectedTy]

/-- `visit_circuit` (`check_program.rs` lines 99–141): the duplicate-member
check, then — for records — `check_has_field(owner, Address)` and
`check_has_field(gates, U64)`, then the no-tuple-member check; the list is the
emitted errors in order. -/
def visitCircuit (c : Circuit) : List TCErr :=
  (if (c.members.map (fun m => m.1)).Nodup then []
   else if c.isRecord then [.duplicateRecordVariable c.name]
   else [.duplicateCircuitMember c.name])
  ++ (if c.isRecord then
        checkHasField c.members symOwner .address ++ checkHasField c.members symGates .u64
      else [])
  ++ (c.members.filter (fun m => match m.2 with | .tuple => true | _ => false)).map
      (fun m => .tupleNotAllowed m.1)

/-! ## Ternary lowering over aggregates (`flattening/flatten_expression.rs`)

This pass lives in a later era of the AST (`Access(Member)`, `Struct`
expressions); it is embedded over its own expression type.  The statements it
hoists are all simple assignments. -/

/-- Expressions of the flattening-era AST, restricted to the node kinds
`reconstruct_ternary` distinguishes. -/
inductive FExpr where
  | ident : Sym → FExpr
  | lit : Nat → FExpr
  | ternary : FExpr → FExpr → FExpr → FExpr
  | memberAccess : FExpr → Sym → FExpr
  | structInit : Sym → List (Sym × FExpr) → FExpr
  | tuple : List FExpr → FExpr
deriving Repr

/-- A hoisted simple assignment `place = value`. -/
structure FAssign where
  place : Sym
  value : FExpr
deriving Repr

/-- A struct definition as the symbol table holds it: the identifier and the
ordered members; a member carries the name of its aggregate type when it is
itself aggregate-typed (all this pass consults). -/
structure StructDef where
  identifier : Sym
  members : List (Sym × Option Sym)
deriving DecidableEq, Repr

/-- The `Flattener` state consulted by `reconstruct_ternary`: the fresh-name
counter, the `structs` map (variable → aggregate name) maintained by the pass,
and the symbol table's struct definitions. -/
structure Flattener where
  counter : Nat
  structs : List (Sym × Sym)
  symbolTable : List (Sym × StructDef)

/-- `symbol_table.lookup_struct`. -/
def Flattener.lookupStructDef (f : Flattener) (name : Sym) : Option StructDef :=
  (f.symbolTable.find? (fun p => p.1 == name)).map (fun p => p.2)

/-- Modelled from the spec: `unique_simple_assign_statement` is defined outside
the given sources; per this file's doc comment it creates the fresh variable
`var$k` (`var$0`, `var$1`, … in its examples) and the assignment
`var$k = expr`, returning the identifier and the statement. -/
def uniqueSimpleAssign (f : Flattener) (e : FExpr) : Sym × FAssign × Flattener :=
  let name := Sym.dollar (.src "var") f.counter
  (name, ⟨name, e⟩, { f with counter := f.counter + 1 })

/-- Modelled from the spec: `lookup_struct_symbol` is defined outside the given
sources; it returns the aggregate name an expression is an instance of — for an
identifier via the pass's `structs` map, for a member access via the declared
type of the accessed member. -/
def lookupStructSymbol (f : Flattener) : FExpr → Option Sym
  | .ident x => (f.structs.find? (fun p => p.1 == x)).map (fun p => p.2)
  | .memberAccess inner m =>
    match lookupStructSymbol f inner with
    | none => none
    | some aggName =>
      match f.lookupStructDef aggName with
      | none => none
      | some sd => ((sd.members.find? (fun p => p.1 == m)).map (fun p => p.2)).join
  | _ => none

mutual

/-- `reconstruct_ternary` (`flatten_expression.rs` lines 45–282).  The source
recursion terminates because the aggregate-dependency graph is acyclic; a fuel
argument (decremented on every call) makes this explicit, `none` standing for
exhausted fuel or one of the source's panics (`zip_eq`, `unwrap`,
`assert_eq!`). -/
def reconstructTernary (fuel : Nat) (f : Flattener) (cond tru fls : FExpr) :
    Option (FExpr × List FAssign × Flattener) :=
  match fuel with
  | 0 => none
  | fuel + 1 =>
    match tru, fls with
    | .tuple first, .tuple second =>
      -- Fold a ternary over tuples into a tuple of per-element ternaries.
      match tupleLoop fuel f cond first second with
      | none => none
      | some (elems, stmts, f1) => some (.tuple elems, stmts, f1)
    | .memberAccess i1 n1, .memberAccess i2 n2 =>
      -- Both arms are member accesses (lines 89–187).
      match lookupStructSymbol f (.memberAccess i1 n1),
            lookupStructSymbol f (.memberAccess i2 n2) with
      | some s1, some s2 =>
        match f.lookupStructDef s1, f.lookupStructDef s2 with
        | some d1, some d2 =>
          if d1 == d2 then
            structCase fuel f cond (.memberAccess i1 n1) (.memberAccess i2 n2) d1
          else none
        | _, _ => none
      | _, _ =>
        ternaryDefault fuel f cond (.memberAccess i1 n1) (.memberAccess i2 n2)
    | .ident first, .ident second =>
      -- Both arms are identifiers recorded as structs (lines 188–256).
      if (f.structs.any (fun p => p.1 == first)) && (f.structs.any (fun p => p.1 == second)) then
        match ((f.structs.find? (fun p => p.1 == first)).map (fun p => p.2)).bind
                f.lookupStructDef,
              ((f.structs.find? (fun p => p.1 == second)).map (fun p => p.2)).bind
                f.lookupStructDef with
        | some d1, some d2 =>
          if d1 == d2 then structCase fuel f cond (.ident first) (.ident second) d1
          else none
        | _, _ => none
      else ternaryDefault fuel f cond (.ident first) (.ident second)
    | t, fl => ternaryDefault fuel f cond t fl

/-- The shared aggregate case: one member loop, then the struct initializer
(reconstructed), its hoisted assignment, and the `structs` record for the
result variable. -/
def structCase (fuel : Nat) (f : Flattener) (cond tRoot fRoot : FExpr)
    (sd : StructDef) : Option (FExpr × List FAssign × Flattener) :=
  match fuel with
  | 0 => none
  | fuel + 1 =>
    match structMembersLoop fuel f cond tRoot fRoot sd.members with
    | none => none
    | some (inits, stmts, f1) =>
      match reconstructStructInit fuel f1 sd.identifier inits with
      | none => none
      | some (expr, stmts2, f2) =>
        let (resName, stmt, f3) := uniqueSimpleAssign f2 expr
        let f4 := { f3 with structs := updateMapping f3.structs resName sd.identifier }
        some (.ident resName, stmts ++ stmts2 ++ [stmt], f4)

/-- The per-member loop of the aggregate case: for each member `m`, the
recursively lowered ternary `cond ? T.m : F.m`, an intermediate assignment of
its result to a fresh variable, and the struct-variable initializer — built,
as in the source, from the fresh identifier on both sides
(`StructVariableInitializer { identifier, expression: Some(Identifier(identifier)) }`
where `identifier` is the fresh variable, shadowing the member name). -/
def structMembersLoop (fuel : Nat) (f : Flattener) (cond tRoot fRoot : FExpr) :
    List (Sym × Option Sym) → Option (List (Sym × FExpr) × List FAssign × Flattener)
  | [] => some ([], [], f)
  | (m, _) :: rest =>
    match fuel with
    | 0 => none
    | fuel + 1 =>
      match reconstructTernary fuel f cond (.memberAccess tRoot m) (.memberAccess fRoot m) with
      | none => none
      | some (expr, stmts, f1) =>
        let (freshName, stmt, f2) := uniqueSimpleAssign f1 expr
        match structMembersLoop fuel f2 cond tRoot fRoot rest with
        | none => none
        | some (inits, stmts2, f3) =>
          some ((freshName, .ident freshName) :: inits, stmts ++ [stmt] ++ stmts2, f3)

/-- The per-element loop of the tuple case (`zip_eq`: a length mismatch is a
panic): reconstruct both elements, lower their ternary, hoist an intermediate
assignment and yield its identifier. -/
def tupleLoop (fuel : Nat) (f : Flattener) (cond : FExpr) :
    List FExpr → List FExpr → Option (List FExpr × List FAssign × Flattener)
  | [], [] => some ([], [], f)
  | t :: ts, fl :: fs =>
    match fuel with
    | 0 => none
    | fuel + 1 =>
      match reconstructExpression fuel f t with
      | none => none
      | some (t1, st1, f1) =>
        match reconstructExpression fuel f1 fl with
        | none => none
        | some (fl1, st2, f2) =>
          match reconstructTernary fuel f2 cond t1 fl1 with
          | none => none
          | some (tern, st3, f3) =>
            let (freshName, stmt, f4) := uniqueSimpleAssign f3 tern
            match tupleLoop fuel f4 cond ts fs with
            | none => none
            | some (elems, st4, f5) =>
              some (.ident freshName :: elems,
                    st1 ++ st2 ++ st3 ++ [stmt] ++ st4, f5)
  | _, _ => none

/-- The default (primitive) case, lines 259–281 and 162–186: reconstruct both
arms, hoist `r = cond ? T1 : F1` and yield `r`. -/
def ternaryDefault (fuel : Nat) (f : Flattener) (cond tru fls : FExpr) :
    Option (FExpr × List FAssign × Flattener) :=
  match fuel with
  | 0 => none
  | fuel + 1 =>
    match reconstructExpression fuel f tru with
    | none => none
    | some (t1, st1, f1) =>
      match reconstructExpression fuel f1 fls with
      | none => none
      | some (fl1, st2, f2) =>
        let (freshName, stmt, f3) := uniqueSimpleAssign f2 (.ternary cond t1 fl1)
        some (.ident freshName, st1 ++ st2 ++ [stmt], f3)

/-- Modelled from the spec: the default expression reconstructor of this pass
(absent from the given sources) dispatches ternaries to `reconstruct_ternary`
and rebuilds every other node unchanged (§4.5 describes lowering only for
ternaries). -/
def reconstructExpression (fuel : Nat) (f : Flattener) :
    FExpr → Option (FExpr × List FAssign × Flattener)
  | .ternary c t fl =>
    match fuel with
    | 0 => none
    | fuel + 1 => reconstructTernary fuel f c t fl
  | e => some (e, [], f)

/-- Modelled from the spec: `reconstruct_struct_init` (absent from the given
sources) rebuilds a struct expression from its reconstructed initializers;
the initializers here are identifiers, which are returned unchanged. -/
def reconstructStructInit (fuel : Nat) (f : Flattener) (name : Sym)
    (inits : List (Sym × FExpr)) : Option (FExpr × List FAssign × Flattener) :=
  match fuel with
  | 0 => none
  | _ + 1 => some (.structInit name inits, [], f)

end

/-- The symbol `p`. -/
def symP : Sym := .src "p"
/-- The symbol `q`. -/
def symQ : Sym := .src "q"
/-- The aggregate name `Pt`. -/
def symPt : Sym := .src "Pt"

/-- `circuit Pt { x: u8, y: u8 }`. -/
def ptDef : StructDef := ⟨symPt, [(symX, none), (symY, none)]⟩

/-- The flattener state for `function f(c: bool, p: Pt, q: Pt) -> Pt`: `p` and
`q` are recorded as instances of `Pt`, the symbol table defines `Pt`. -/
def ptFlattener : Flattener :=
  { counter := 0
  , structs := [(symP, symPt), (symQ, symPt)]
  , symbolTable := [(symPt, ptDef)] }

/-! ## Invariant vocabulary and specification-side formulations -/

mutual

/-- The assignment places of a statement, every control-flow branch included.
A definition's target is counted too: within the SSA pass definitions are
rewritten into assignments of the same place. -/
def placesStmt : Statement → List Sym
  | .assign _ x _ => [x]
  | .definition x _ _ => [x]
  | .conditional _ blk next => placesList blk ++ placesNext next
  | .block stmts => placesList stmts
  | _ => []

/-- `placesStmt` of an optional statement. -/
def placesNext : Option Statement → List Sym
  | none => []
  | some st => placesStmt st

/-- `placesStmt` over a statement list. -/
def placesList : List Statement → List Sym
  | [] => []
  | st :: rest => placesStmt st ++ placesList rest

end

/-- The numeric suffix of a generated name (`0` for a source name; source names
do not occur as SSA-generated places). -/
def placeId : Sym → Nat
  | .src _ => 0
  | .dollar _ i => i

/-- `FreshSeg l a b`: every element of `l` is a generated name `base$i` with
`a ≤ i < b`, and the ids are pairwise distinct. -/
def FreshSeg (l : List Sym) (a b : Nat) : Prop :=
  (∀ p ∈ l, ∃ base i, p = Sym.dollar base i ∧ a ≤ i ∧ i < b) ∧
  (l.map placeId).Nodup

/-- Whether a statement is a conditional. -/
def isCondStmt : Statement → Bool
  | .conditional _ _ _ => true
  | _ => false

/-- One φ-assignment exactly as the claim words it: `t` (resp. `f`) is the
symbol's binding in the popped if-frame's (resp. else-frame's) local mapping,
with fallback to the pre-conditional table when the symbol was written on only
one side; the new name is `sym$k`. -/
def specPhi (cond : Expression) (pre : RenameTable) (ifM elseM : List (Sym × Sym))
    (k : Nat) (sym : Sym) : Option Statement :=
  match (lookupMapping ifM sym).orElse (fun _ => pre.lookup sym),
        (lookupMapping elseM sym).orElse (fun _ => pre.lookup sym) with
  | some t, some fl =>
    some (.assign .assign (Sym.dollar sym k) (.ternary cond (.ident t) (.ident fl)))
  | _, _ => none

/-- The φ-assignments for a write set, with ids counting up from `k`;
`none` when some lookup has no fallback either. -/
def specPhis (cond : Expression) (pre : RenameTable) (ifM elseM : List (Sym × Sym)) :
    Nat → List Sym → Option (List Statement)
  | _, [] => some []
  | k, sym :: rest =>
    match specPhi cond pre ifM elseM k sym with
    | none => none
    | some phi =>
      match specPhis cond pre ifM elseM (k + 1) rest with
      | none => none
      | some phis => some (phi :: phis)

/-- Recording the φ names of a write set in a frame, ids counting up from `k`. -/
def recordPhiNames (t : RenameTable) : Nat → List Sym → RenameTable
  | _, [] => t
  | k, sym :: rest => recordPhiNames (t.update sym (Sym.dollar sym k)) (k + 1) rest

/-- The marks one flat statement adds, per the claim: a return or console
statement marks its expressions' identifiers, an assignment whose place is
marked under `m` marks its value's identifiers, anything else marks nothing. -/
def specStmtMarks (stmt : Statement) (m : Sym → Bool) (y : Sym) : Bool :=
  match stmt with
  | .ret e => (identsOf e).contains y
  | .console f => (identsOfConsole f).contains y
  | .assign _ x v => m x && (identsOf v).contains y
  | _ => false

/-! # Theorems -/

/-- C1.  For the body `let x: u8 = a; x += b; return x;` the SSA pass yields
`assign x$0 = a; assign x$1 = x$1 + b; return x$1;` — the left operand of the
lowered compound assignment is the assignee under its freshly renamed
(post-assignment) name `x$1`, because `reduce_assign` renames the assignee
before building `Binary{left: assignee.identifier, value}`.  In particular the
output is not the claimed `assign x$1 = x$0 + b` form, which would use the
pre-assignment name on the right-hand side. -/
theorem ssa_compound_assign_uses_new_name :
    runSsaFunction [symA, symB] compoundBody =
      .ok [ .assign .assign (Sym.dollar symX 0) (.ident symA)
          , .assign .assign (Sym.dollar symX 1)
              (.binary .add (.ident (Sym.dollar symX 1)) (.ident symB))
          , .ret (.ident (Sym.dollar symX 1)) ]
    ∧ runSsaFunction [symA, symB] compoundBody ≠
      .ok [ .assign .assign (Sym.dollar symX 0) (.ident symA)
          , .assign .assign (Sym.dollar symX 1)
              (.binary .add (.ident (Sym.dollar symX 0)) (.ident symB))
          , .ret (.ident (Sym.dollar symX 1)) ] := by
  have h1 : runSsaFunction [symA, symB] compoundBody =
      .ok [ .assign .assign (Sym.dollar symX 0) (.ident symA)
          , .assign .assign (Sym.dollar symX 1)
              (.binary .add (.ident (Sym.dollar symX 1)) (.ident symB))
          , .ret (.ident (Sym.dollar symX 1)) ] := rfl
  refine ⟨h1, ?_⟩
  intro h
  rw [h1] at h
  simp [symX] at h

set_option maxHeartbeats 1600000 in
/-- C3.  For `let x: u8 = 0u8; if a && b { x = 1u8; } return x;` the SSA pass
hoists `assign cond$3 = a && b` immediately before the conditional, but the
conditional (and the φ-assignment ternary) keep the original binary condition
`a && b` — `reduce_block` pushes the statement unchanged and never replaces the
condition by `cond$3`, contradicting the claimed (and doc-commented)
replacement. -/
theorem ssa_cond_hoist_without_replacement :
    runSsaFunction [symA, symB] hoistBody =
      .ok [ .assign .assign (Sym.dollar symX 0) (.value (.u8lit 0))
          , .assign .assign (Sym.dollar (.src "cond") 3)
              (.binary .and (.ident symA) (.ident symB))
          , .conditional (.binary .and (.ident symA) (.ident symB))
              [ .assign .assign (Sym.dollar symX 1) (.value (.u8lit 1)) ]
              none
          , .assign .assign (Sym.dollar symX 2)
              (.ternary (.binary .and (.ident symA) (.ident symB))
                (.ident (Sym.dollar symX 1)) (.ident (Sym.dollar symX 0)))
          , .ret (.ident (Sym.dollar symX 2)) ]
    ∧ runSsaFunction [symA, symB] hoistBody ≠
      .ok [ .assign .assign (Sym.dollar symX 0) (.value (.u8lit 0))
          , .assign .assign (Sym.dollar (.src "cond") 3)
              (.binary .and (.ident symA) (.ident symB))
          , .conditional (.ident (Sym.dollar (.src "cond") 3))
              [ .assign .assign (Sym.dollar symX 1) (.value (.u8lit 1)) ]
              none
          , .assign .assign (Sym.dollar symX 2)
              (.ternary (.ident (Sym.dollar (.src "cond") 3))
                (.ident (Sym.dollar symX 1)) (.ident (Sym.dollar symX 0)))
          , .ret (.ident (Sym.dollar symX 2)) ] := by
  have h1 : runSsaFunction [symA, symB] hoistBody =
      .ok [ .assign .assign (Sym.dollar symX 0) (.value (.u8lit 0))
          , .assign .assign (Sym.dollar (.src "cond") 3)
              (.binary .and (.ident symA) (.ident symB))
          , .conditional (.binary .and (.ident symA) (.ident symB))
              [ .assign .assign (Sym.dollar symX 1) (.value (.u8lit 1)) ]
              none
          , .assign .assign (Sym.dollar symX 2)
              (.ternary (.binary .and (.ident symA) (.ident symB))
                (.ident (Sym.dollar symX 1)) (.ident (Sym.dollar symX 0)))
          , .ret (.ident (Sym.dollar symX 2)) ] := rfl
  refine ⟨h1, ?_⟩
  intro h
  rw [h1] at h
  simp at h

set_option maxHeartbeats 1600000 in
/-- C4.  For `circuit Pt { x: u8, y: u8 }` and the ternary `c ? p : q` with
`p, q : Pt`, the lowering emits five statements — a member ternary and an extra
copy assignment per member, then the constructor — and the constructor's
initializers bind the fresh variables `var$1`, `var$3` as the member names
(the source shadows the member identifier with the fresh one), not the member
names `x`, `y` of `Pt`.  The claimed shape — two ternaries and one constructor
`Pt { x: var$0, y: var$1 }` — is not produced for any final pass state. -/
theorem flatten_ternary_struct_initializer_names :
    reconstructTernary 20 ptFlattener (.ident symC) (.ident symP) (.ident symQ) =
      some (.ident (Sym.dollar (.src "var") 4),
        [ ⟨Sym.dollar (.src "var") 0,
            .ternary (.ident symC) (.memberAccess (.ident symP) symX)
              (.memberAccess (.ident symQ) symX)⟩
        , ⟨Sym.dollar (.src "var") 1, .ident (Sym.dollar (.src "var") 0)⟩
        , ⟨Sym.dollar (.src "var") 2,
            .ternary (.ident symC) (.memberAccess (.ident symP) symY)
              (.memberAccess (.ident symQ) symY)⟩
        , ⟨Sym.dollar (.src "var") 3, .ident (Sym.dollar (.src "var") 2)⟩
        , ⟨Sym.dollar (.src "var") 4,
            .structInit symPt
              [ (Sym.dollar (.src "var") 1, .ident (Sym.dollar (.src "var") 1))
              , (Sym.dollar (.src "var") 3, .ident (Sym.dollar (.src "var") 3)) ]⟩ ],
        { counter := 5
        , structs := [(symP, symPt), (symQ, symPt), (Sym.dollar (.src "var") 4, symPt)]
        , symbolTable := [(symPt, ptDef)] })
    ∧ ∀ r stmts2 f',
        reconstructTernary 20 ptFlattener (.ident symC) (.ident symP) (.ident symQ) ≠
          some (r,
            [ ⟨Sym.dollar (.src "var") 0,
                .ternary (.ident symC) (.memberAccess (.ident symP) symX)
                  (.memberAccess (.ident symQ) symX)⟩
            , ⟨Sym.dollar (.src "var") 1,
                .ternary (.ident symC) (.memberAccess (.ident symP) symY)
                  (.memberAccess (.ident symQ) symY)⟩
            , ⟨Sym.dollar (.src "var") 2,
                .structInit symPt
                  [ (symX, .ident (Sym.dollar (.src "var") 0))
                  , (symY, .ident (Sym.dollar (.src "var") 1)) ]⟩ ] ++ stmts2, f') := by
  have h1 : reconstructTernary 20 ptFlattener (.ident symC) (.ident symP) (.ident symQ) =
      some (.ident (Sym.dollar (.src "var") 4),
        [ ⟨Sym.dollar (.src "var") 0,
            .ternary (.ident symC) (.memberAccess (.ident symP) symX)
              (.memberAccess (.ident symQ) symX)⟩
        , ⟨Sym.dollar (.src "var") 1, .ident (Sym.dollar (.src "var") 0)⟩
        , ⟨Sym.dollar (.src "var") 2,
            .ternary (.ident symC) (.memberAccess (.ident symP) symY)
              (.memberAccess (.ident symQ) symY)⟩
        , ⟨Sym.dollar (.src "var") 3, .ident (Sym.dollar (.src "var") 2)⟩
        , ⟨Sym.dollar (.src "var") 4,
            .structInit symPt
              [ (Sym.dollar (.src "var") 1, .ident (Sym.dollar (.src "var") 1))
              , (Sym.dollar (.src "var") 3, .ident (Sym.dollar (.src "var") 3)) ]⟩ ],
        { counter := 5
        , structs := [(symP, symPt), (symQ, symPt), (Sym.dollar (.src "var") 4, symPt)]
        , symbolTable := [(symPt, ptDef)] }) := rfl
  refine ⟨h1, ?_⟩
  intro r stmts2 f' h
  rw [h1] at h
  simp [FAssign.mk.injEq] at h

/-! ## Conditional flattening: helper lemmas -/

/-- `condFreeList` distributes over append. -/
theorem condFreeList_append (a b : List Statement) :
    condFreeList (a ++ b) = (condFreeList a && condFreeList b) := by
  induction a with
  | nil => simp [condFreeList]
  | cons s rest ih => simp [condFreeList, ih, Bool.and_assoc]

mutual

/-- A statement without conditionals is left unchanged by the flattener. -/
theorem condFree_flattenStatement (s : Statement) (h : condFree s = true) :
    flattenStatement s = s := by
  cases s with
  | conditional c blk next => simp [condFree] at h
  | block stmts =>
    simp only [condFree] at h
    simp only [flattenStatement, condFree_flattenStatementList stmts h,
      condFree_flattenSplice stmts h]
  | ret e => rfl
  | definition x ty v => rfl
  | assign op x v => rfl
  | console f => rfl

/-- A statement list without conditionals is left unchanged by the director
loop. -/
theorem condFree_flattenStatementList (l : List Statement) (h : condFreeList l = true) :
    flattenStatementList l = l := by
  cases l with
  | nil => rfl
  | cons s rest =>
    simp only [condFreeList, Bool.and_eq_true] at h
    simp only [flattenStatementList, condFree_flattenStatement s h.1,
      condFree_flattenStatementList rest h.2]

/-- A statement list without top-level conditionals is left unchanged by the
splice. -/
theorem condFree_flattenSplice (l : List Statement) (h : condFreeList l = true) :
    flattenSplice l = l := by
  cases l with
  | nil => rfl
  | cons s rest =>
    simp only [condFreeList, Bool.and_eq_true] at h
    cases s with
    | conditional c blk next => simp [condFree] at h
    | ret e => simp only [flattenSplice, condFree_flattenSplice rest h.2]
    | definition x ty v => simp only [flattenSplice, condFree_flattenSplice rest h.2]
    | assign op x v => simp only [flattenSplice, condFree_flattenSplice rest h.2]
    | console f => simp only [flattenSplice, condFree_flattenSplice rest h.2]
    | block stmts => simp only [flattenSplice, condFree_flattenSplice rest h.2]

end

mutual

/-- A non-conditional statement with no `else if` chain anywhere flattens to a
conditional-free statement. -/
theorem noCondNext_condFree_stmt (s : Statement) (h : noCondNext s = true)
    (hnc : isCondStmt s = false) : condFree (flattenStatement s) = true := by
  cases s with
  | conditional c blk next => simp [isCondStmt] at hnc
  | block stmts =>
    simp only [noCondNext] at h
    simp only [flattenStatement, condFree]
    exact noCondNext_condFree_list stmts h
  | ret e => rfl
  | definition x ty v => rfl
  | assign op x v => rfl
  | console f => rfl

/-- A statement list with no `else if` chain anywhere flattens to a
conditional-free block. -/
theorem noCondNext_condFree_list (l : List Statement) (h : noCondNextList l = true) :
    condFreeList (flattenSplice (flattenStatementList l)) = true := by
  cases l with
  | nil => rfl
  | cons s rest =>
    simp only [noCondNextList, Bool.and_eq_true] at h
    cases s with
    | conditional c blk next =>
      obtain ⟨h1, h2⟩ := h
      have hrest := noCondNext_condFree_list rest h2
      cases next with
      | none =>
        simp only [noCondNext, Bool.and_eq_true] at h1
        have hblk := noCondNext_condFree_list blk h1.2
        simp [flattenStatementList, flattenStatement, flattenNext, flattenSplice,
          condFreeList_append, condFreeList, hblk, hrest]
      | some st =>
        cases st with
        | conditional c2 blk2 next2 => simp [noCondNext] at h1
        | ret e =>
          simp only [noCondNext, Bool.and_eq_true] at h1
          have hblk := noCondNext_condFree_list blk h1.2
          simp [flattenStatementList, flattenStatement, flattenNext, flattenSplice,
            condFreeList_append, condFreeList, condFree, hblk, hrest]
        | definition x ty v =>
          simp only [noCondNext, Bool.and_eq_true] at h1
          have hblk := noCondNext_condFree_list blk h1.2
          simp [flattenStatementList, flattenStatement, flattenNext, flattenSplice,
            condFreeList_append, condFreeList, condFree, hblk, hrest]
        | assign op x v =>
          simp only [noCondNext, Bool.and_eq_true] at h1
          have hblk := noCondNext_condFree_list blk h1.2
          simp [flattenStatementList, flattenStatement, flattenNext, flattenSplice,
            condFreeList_append, condFreeList, condFree, hblk, hrest]
        | console f =>
          simp only [noCondNext, Bool.and_eq_true] at h1
          have hblk := noCondNext_condFree_list blk h1.2
          simp [flattenStatementList, flattenStatement, flattenNext, flattenSplice,
            condFreeList_append, condFreeList, condFree, hblk, hrest]
        | block stmts2 =>
          simp only [noCondNext, Bool.and_eq_true] at h1
          have hblk := noCondNext_condFree_list blk h1.2
          have hst := noCondNext_condFree_list stmts2 h1.1
          simp [flattenStatementList, flattenStatement, flattenNext, flattenSplice,
            condFreeList_append, condFreeList, condFree, hblk, hrest, hst]
    | ret e =>
      simp only [flattenStatementList, flattenStatement, flattenSplice, condFreeList,
        Bool.and_eq_true]
      exact ⟨rfl, noCondNext_condFree_list rest h.2⟩
    | definition x ty v =>
      simp only [flattenStatementList, flattenStatement, flattenSplice, condFreeList,
        Bool.and_eq_true]
      exact ⟨rfl, noCondNext_condFree_list rest h.2⟩
    | assign op x v =>
      simp only [flattenStatementList, flattenStatement, flattenSplice, condFreeList,
        Bool.and_eq_true]
      exact ⟨rfl, noCondNext_condFree_list rest h.2⟩
    | console f =>
      simp only [flattenStatementList, flattenStatement, flattenSplice, condFreeList,
        Bool.and_eq_true]
      exact ⟨rfl, noCondNext_condFree_list rest h.2⟩
    | block stmts =>
      simp only [flattenStatementList, flattenStatement, flattenSplice, condFreeList,
        Bool.and_eq_true]
      refine ⟨?_, noCondNext_condFree_list rest h.2⟩
      simp only [noCondNext] at h
      exact noCondNext_condFree_list stmts h.1

end

/-! ## SSA: state and freshness lemmas -/

/-- Updating a frame never changes its parent. -/
theorem RenameTable.parent_update (t : RenameTable) (k v : Sym) :
    (t.update k v).parent = t.parent := by
  cases t; rfl

/-- A right-hand-side identifier lookup leaves the state unchanged. -/
theorem reduceIdentifier_false_state (x : Sym) (s : SsaState) (n : Sym) (s' : SsaState)
    (h : reduceIdentifier false x s = .ok (n, s')) : s' = s := by
  unfold reduceIdentifier at h
  simp only [Bool.false_eq_true, if_false] at h
  cases hl : s.renameTable.lookup x <;> rw [hl] at h
  · exact absurd h (by simp)
  · rw [Except.ok.injEq, Prod.mk.injEq] at h
    exact h.2.symm

/-- Expression reduction (always on the right-hand side) leaves the state
unchanged. -/
theorem reduceExpression_state (e : Expression) (s : SsaState) (e' : Expression)
    (s' : SsaState) (h : reduceExpression e s = .ok (e', s')) : s' = s := by
  induction e generalizing s e' s' with
  | ident x =>
    simp only [reduceExpression] at h
    cases hr : reduceIdentifier false x s with
    | error msg => simp only [hr] at h; exact absurd h (by simp)
    | ok p =>
      obtain ⟨n, s1⟩ := p
      simp only [hr] at h
      simp only [Except.ok.injEq, Prod.mk.injEq] at h
      rw [← h.2]
      exact reduceIdentifier_false_state x s n s1 hr
  | value v =>
    rw [reduceExpression, Except.ok.injEq, Prod.mk.injEq] at h
    exact h.2.symm
  | binary op l r ihl ihr =>
    simp only [reduceExpression] at h
    cases hl : reduceExpression l s with
    | error msg => simp only [hl] at h; exact absurd h (by simp)
    | ok p =>
      obtain ⟨l1, s1⟩ := p
      simp only [hl] at h
      cases hr : reduceExpression r s1 with
      | error msg => simp only [hr] at h; exact absurd h (by simp)
      | ok q =>
        obtain ⟨r1, s2⟩ := q
        simp only [hr] at h
        simp only [Except.ok.injEq, Prod.mk.injEq] at h
        rw [← h.2]
        rw [ihr _ _ _ hr, ihl _ _ _ hl]
  | unary op e ih =>
    simp only [reduceExpression] at h
    cases he : reduceExpression e s with
    | error msg => simp only [he] at h; exact absurd h (by simp)
    | ok p =>
      obtain ⟨e1, s1⟩ := p
      simp only [he] at h
      simp only [Except.ok.injEq, Prod.mk.injEq] at h
      rw [← h.2]
      exact ih _ _ _ he
  | ternary c t f ihc iht ihf =>
    simp only [reduceExpression] at h
    cases hc : reduceExpression c s with
    | error msg => simp only [hc] at h; exact absurd h (by simp)
    | ok p =>
      obtain ⟨c1, s1⟩ := p
      simp only [hc] at h
      cases ht : reduceExpression t s1 with
      | error msg => simp only [ht] at h; exact absurd h (by simp)
      | ok q =>
        obtain ⟨t1, s2⟩ := q
        simp only [ht] at h
        cases hf : reduceExpression f s2 with
        | error msg => simp only [hf] at h; exact absurd h (by simp)
        | ok w =>
          obtain ⟨f1, s3⟩ := w
          simp only [hf] at h
          simp only [Except.ok.injEq, Prod.mk.injEq] at h
          rw [← h.2]
          rw [ihf _ _ _ hf, iht _ _ _ ht, ihc _ _ _ hc]
  | err =>
    rw [reduceExpression, Except.ok.injEq, Prod.mk.injEq] at h
    exact h.2.symm

/-- Expression-list reduction leaves the state unchanged. -/
theorem reduceExpressionList_state (args : List Expression) (s : SsaState)
    (args' : List Expression) (s' : SsaState)
    (h : reduceExpressionList args s = .ok (args', s')) : s' = s := by
  induction args generalizing s args' s' with
  | nil =>
    rw [reduceExpressionList, Except.ok.injEq, Prod.mk.injEq] at h
    exact h.2.symm
  | cons e rest ih =>
    simp only [reduceExpressionList] at h
    cases he : reduceExpression e s with
    | error msg => simp only [he] at h; exact absurd h (by simp)
    | ok p =>
      obtain ⟨e1, s1⟩ := p
      simp only [he] at h
      cases hr : reduceExpressionList rest s1 with
      | error msg => simp only [hr] at h; exact absurd h (by simp)
      | ok q =>
        obtain ⟨rest1, s2⟩ := q
        simp only [hr] at h
        simp only [Except.ok.injEq, Prod.mk.injEq] at h
        rw [← h.2]
        rw [ih _ _ _ hr, reduceExpression_state e s e1 s1 he]

/-- `FreshSeg` on a widened id range. -/
theorem FreshSeg.mono (l : List Sym) (a b a' b' : Nat) (h : FreshSeg l a b)
    (ha : a' ≤ a) (hb : b ≤ b') : FreshSeg l a' b' := by
  obtain ⟨h1, h2⟩ := h
  refine ⟨fun p hp => ?_, h2⟩
  obtain ⟨base, i, hpi, hai, hib⟩ := h1 p hp
  exact ⟨base, i, hpi, le_trans ha hai, lt_of_lt_of_le hib hb⟩

/-- Two adjacent fresh segments concatenate. -/
theorem FreshSeg.append (l₁ l₂ : List Sym) (a b c : Nat) (hab : a ≤ b) (hbc : b ≤ c)
    (h₁ : FreshSeg l₁ a b) (h₂ : FreshSeg l₂ b c) : FreshSeg (l₁ ++ l₂) a c := by
  obtain ⟨h11, h12⟩ := h₁
  obtain ⟨h21, h22⟩ := h₂
  constructor
  · intro p hp
    rcases List.mem_append.mp hp with hp | hp
    · obtain ⟨base, i, hpi, hai, hib⟩ := h11 p hp
      exact ⟨base, i, hpi, hai, by omega⟩
    · obtain ⟨base, i, hpi, hbi, hic⟩ := h21 p hp
      exact ⟨base, i, hpi, by omega, hic⟩
  · rw [List.map_append, List.nodup_append]
    refine ⟨h12, h22, ?_⟩
    intro i hi₁ hi₂
    rw [List.mem_map] at hi₁ hi₂
    obtain ⟨p₁, hp₁, hip₁⟩ := hi₁
    obtain ⟨p₂, hp₂, hip₂⟩ := hi₂
    obtain ⟨b₁, i₁, he₁, ha₁, hb₁⟩ := h11 p₁ hp₁
    obtain ⟨b₂, i₂, he₂, hb₂, hc₂⟩ := h21 p₂ hp₂
    subst he₁ he₂
    simp only [placeId] at hip₁ hip₂
    omega

/-- The empty fresh segment. -/
theorem FreshSeg.nil (a b : Nat) : FreshSeg [] a b :=
  ⟨fun p hp => absurd hp (List.not_mem_nil p), by simp⟩

/-- A single fresh name. -/
theorem FreshSeg.single (base : Sym) (i : Nat) : FreshSeg [Sym.dollar base i] i (i + 1) := by
  refine ⟨fun p hp => ?_, by simp⟩
  rw [List.mem_singleton] at hp
  exact ⟨base, i, hp, le_refl i, Nat.lt_succ_self i⟩

/-- The φ-loop: counter monotone, parent preserved, and the appended
φ-assignments' places are fresh names of the loop's counter range. -/
theorem phiLoop_inv (cond : Expression) (iT eT : RenameTable) (syms : List Sym)
    (s s' : SsaState) (h : phiLoop cond iT eT syms s = .ok s') :
    s.counter ≤ s'.counter ∧ s'.renameTable.parent = s.renameTable.parent ∧
    ∃ newPhis, s'.phiFunctions = s.phiFunctions ++ newPhis ∧
      FreshSeg (placesList newPhis) s.counter s'.counter := by
  induction syms generalizing s with
  | nil =>
    rw [phiLoop, Except.ok.injEq] at h
    subst h
    exact ⟨le_refl _, rfl, [], by simp, FreshSeg.nil _ _⟩
  | cons sym rest ih =>
    rw [phiLoop] at h
    cases hif : iT.lookup sym with
    | none => rw [hif] at h; exact absurd h (by simp)
    | some ifName =>
      rw [hif] at h
      cases hel : eT.lookup sym with
      | none => rw [hel] at h; exact absurd h (by simp)
      | some elseName =>
        rw [hel] at h
        simp only [getUniqueId] at h
        obtain ⟨h1, h2, newPhis, h3, h4⟩ := ih _ h
        refine ⟨by exact Nat.le_of_succ_le h1, ?_, Statement.assign .assign (Sym.dollar sym s.counter)
            (.ternary cond (.ident ifName) (.ident elseName)) :: newPhis, ?_, ?_⟩
        · rw [h2]
          simp [RenameTable.parent_update]
        · rw [h3]
          simp
        · have hsingle := FreshSeg.single sym s.counter
          have happ := FreshSeg.append _ _ s.counter (s.counter + 1) s'.counter
            (by omega) (by simpa using h1) hsingle (by simpa using h4)
          simpa [placesList, placesStmt] using happ

/-- Ids of places that are all dollar names in a range are in that range. -/
theorem placeId_bounds (l : List Sym) (a c : Nat)
    (hall : ∀ p ∈ l, ∃ base i, p = Sym.dollar base i ∧ a ≤ i ∧ i < c) :
    ∀ i ∈ l.map placeId, a ≤ i ∧ i < c := by
  intro i hi
  rw [List.mem_map] at hi
  obtain ⟨p, hp, hip⟩ := hi
  obtain ⟨base, j, hpj, haj, hjc⟩ := hall p hp
  subst hpj
  simp only [placeId] at hip
  omega

/-- Phase-two bookkeeping: keeping a statement in front of the processed
rest. -/
theorem phase2_keep_combine (hp rp r1p : List Sym) (a c0 c1 : Nat)
    (hall : ∀ p ∈ hp ++ rp, ∃ base i, p = Sym.dollar base i ∧ a ≤ i ∧ i < c0)
    (hnd : ((hp ++ rp).map placeId).Nodup)
    (h1 : ∀ p ∈ r1p, ∃ base i, p = Sym.dollar base i ∧ a ≤ i ∧ i < c1)
    (h2 : (r1p.map placeId).Nodup)
    (h3 : ∀ i ∈ r1p.map placeId, i ∈ rp.map placeId ∨ (c0 ≤ i ∧ i < c1)) :
    (∀ p ∈ hp ++ r1p, ∃ base i, p = Sym.dollar base i ∧ a ≤ i ∧ i < max c0 c1) ∧
    ((hp ++ r1p).map placeId).Nodup ∧
    (∀ i ∈ (hp ++ r1p).map placeId,
      i ∈ (hp ++ rp).map placeId ∨ (c0 ≤ i ∧ i < c1)) := by
  have hhp : ∀ p ∈ hp, ∃ base i, p = Sym.dollar base i ∧ a ≤ i ∧ i < c0 :=
    fun p hp' => hall p (List.mem_append_left _ hp')
  have hhpid := placeId_bounds hp a c0 hhp
  refine ⟨?_, ?_, ?_⟩
  · intro p hpm
    rcases List.mem_append.mp hpm with hpm | hpm
    · obtain ⟨base, i, hpi, hai, hic⟩ := hhp p hpm
      exact ⟨base, i, hpi, hai, lt_of_lt_of_le hic (le_max_left _ _)⟩
    · obtain ⟨base, i, hpi, hai, hic⟩ := h1 p hpm
      exact ⟨base, i, hpi, hai, lt_of_lt_of_le hic (le_max_right _ _)⟩
  · rw [List.map_append, List.nodup_append]
    rw [List.map_append, List.nodup_append] at hnd
    refine ⟨hnd.1, h2, ?_⟩
    intro i hi₁ hi₂
    rcases h3 i hi₂ with hin | ⟨hc0, -⟩
    · exact hnd.2.2 hi₁ hin
    · exact absurd hc0 (by have := hhpid i hi₁; omega)
  · intro i hi
    rw [List.map_append, List.mem_append] at hi
    rcases hi with hi | hi
    · exact Or.inl (by rw [List.map_append, List.mem_append]; exact Or.inl hi)
    · rcases h3 i hi with hin | hr
      · exact Or.inl (by rw [List.map_append, List.mem_append]; exact Or.inr hin)
      · exact Or.inr hr

/-- Phase-two bookkeeping: hoisting a fresh `cond$c0` assignment before a kept
conditional, the rest processed from `c0 + 1`. -/
theorem phase2_hoist_combine (hp rp r1p : List Sym) (a c0 c1 : Nat) (hc : c0 + 1 ≤ c1)
    (hall : ∀ p ∈ hp ++ rp, ∃ base i, p = Sym.dollar base i ∧ a ≤ i ∧ i < c0)
    (hnd : ((hp ++ rp).map placeId).Nodup)
    (h1 : ∀ p ∈ r1p, ∃ base i, p = Sym.dollar base i ∧ a ≤ i ∧ i < c1)
    (h2 : (r1p.map placeId).Nodup)
    (h3 : ∀ i ∈ r1p.map placeId, i ∈ rp.map placeId ∨ (c0 + 1 ≤ i ∧ i < c1)) :
    (∀ p ∈ Sym.dollar (.src "cond") c0 :: (hp ++ r1p),
        ∃ base i, p = Sym.dollar base i ∧ min a c0 ≤ i ∧ i < c1) ∧
    (((Sym.dollar (.src "cond") c0 :: (hp ++ r1p)).map placeId).Nodup) ∧
    (∀ i ∈ (Sym.dollar (.src "cond") c0 :: (hp ++ r1p)).map placeId,
      i ∈ (hp ++ rp).map placeId ∨ (c0 ≤ i ∧ i < c1)) := by
  have hhp : ∀ p ∈ hp, ∃ base i, p = Sym.dollar base i ∧ a ≤ i ∧ i < c0 :=
    fun p hp' => hall p (List.mem_append_left _ hp')
  have hhpid := placeId_bounds hp a c0 hhp
  have hrpid := placeId_bounds rp a c0 (fun p hp' => hall p (List.mem_append_right _ hp'))
  refine ⟨?_, ?_, ?_⟩
  · intro p hpm
    rcases List.mem_cons.mp hpm with hpm | hpm
    · exact ⟨.src "cond", c0, hpm, by omega, by omega⟩
    · rcases List.mem_append.mp hpm with hpm | hpm
      · obtain ⟨base, i, hpi, hai, hic⟩ := hhp p hpm
        exact ⟨base, i, hpi, by omega, by omega⟩
      · obtain ⟨base, i, hpi, hai, hic⟩ := h1 p hpm
        exact ⟨base, i, hpi, by omega, hic⟩
  · rw [List.map_cons, List.nodup_cons]
    constructor
    · intro hmem
      simp only [placeId] at hmem
      rw [List.map_append, List.mem_append] at hmem
      rcases hmem with hmem | hmem
      · exact absurd hmem (by intro hh; have := hhpid _ hh; omega)
      · rcases h3 _ hmem with hin | hr
        · have := hrpid _ hin; omega
        · omega
    · rw [List.map_append, List.nodup_append]
      rw [List.map_append, List.nodup_append] at hnd
      refine ⟨hnd.1, h2, ?_⟩
      intro i hi₁ hi₂
      rcases h3 i hi₂ with hin | ⟨hc0, -⟩
      · exact hnd.2.2 hi₁ hin
      · exact absurd hc0 (by have := hhpid i hi₁; omega)
  · intro i hi
    rcases List.mem_cons.mp hi with hi | hi
    · simp only [placeId] at hi
      exact Or.inr (by omega)
    · rw [List.map_append, List.mem_append] at hi
      rcases hi with hi | hi
      · exact Or.inl (by rw [List.map_append, List.mem_append]; exact Or.inl hi)
      · rcases h3 i hi with hin | hr
        · exact Or.inl (by rw [List.map_append, List.mem_append]; exact Or.inr hin)
        · exact Or.inr ⟨by omega, hr.2⟩

/-- Phase two of `reduce_block`: the counter never decreases, the rename table
and φ-buffer are untouched, and the output's assignment places are the input's
plus fresh `cond$k` names of the step's counter range, all ids distinct. -/
theorem ssaBlockPhase2_inv (stmts : List Statement) :
    ∀ (s : SsaState) (out : List Statement) (s' : SsaState) (a : Nat),
      a ≤ s.counter →
      ssaBlockPhase2 stmts s = .ok (out, s') →
      (∀ p ∈ placesList stmts, ∃ base i, p = Sym.dollar base i ∧ a ≤ i ∧ i < s.counter) →
      ((placesList stmts).map placeId).Nodup →
      s.counter ≤ s'.counter ∧ s'.renameTable = s.renameTable ∧
      s'.phiFunctions = s.phiFunctions ∧
      (∀ p ∈ placesList out, ∃ base i, p = Sym.dollar base i ∧ a ≤ i ∧ i < s'.counter) ∧
      ((placesList out).map placeId).Nodup ∧
      (∀ i ∈ (placesList out).map placeId,
        i ∈ (placesList stmts).map placeId ∨ (s.counter ≤ i ∧ i < s'.counter)) := by
  induction stmts with
  | nil =>
    intro s out s' a ha h hall hnd
    rw [ssaBlockPhase2, Except.ok.injEq, Prod.mk.injEq] at h
    obtain ⟨h1, h2⟩ := h
    subst h1
    subst h2
    exact ⟨le_refl _, rfl, rfl, by simp [placesList], by simp [placesList],
      by simp [placesList]⟩
  | cons stmt rest ih =>
    intro s out s' a ha h hall hnd
    rw [show placesList (stmt :: rest) = placesStmt stmt ++ placesList rest from rfl]
      at hall hnd
    have hallRest : ∀ p ∈ placesList rest,
        ∃ base i, p = Sym.dollar base i ∧ a ≤ i ∧ i < s.counter :=
      fun p hp => hall p (List.mem_append_right _ hp)
    have hndRest : ((placesList rest).map placeId).Nodup := by
      rw [List.map_append, List.nodup_append] at hnd
      exact hnd.2.1
    cases stmt with
    | definition x ty v =>
      simp only [ssaBlockPhase2] at h
      cases hr : ssaBlockPhase2 rest s with
      | error msg => rw [hr] at h; exact absurd h (by simp)
      | ok p =>
        obtain ⟨rest1, s1⟩ := p
        simp only [hr, Except.ok.injEq, Prod.mk.injEq] at h
        obtain ⟨hout, hs⟩ := h
        subst hout
        subst hs
        obtain ⟨ih1, ih2, ih3, ih4, ih5, ih6⟩ := ih s rest1 s1 a ha hr hallRest hndRest
        obtain ⟨c1, c2, c3⟩ := phase2_keep_combine (placesStmt (.definition x ty v))
          (placesList rest) (placesList rest1) a s.counter s1.counter hall hnd ih4 ih5 ih6
        rw [show max s.counter s1.counter = s1.counter by omega] at c1
        exact ⟨ih1, ih2, ih3, c1, c2, c3⟩
    | ret e =>
      simp only [ssaBlockPhase2] at h
      cases hr : ssaBlockPhase2 rest s with
      | error msg => rw [hr] at h; exact absurd h (by simp)
      | ok p =>
        obtain ⟨rest1, s1⟩ := p
        simp only [hr, Except.ok.injEq, Prod.mk.injEq] at h
        obtain ⟨hout, hs⟩ := h
        subst hout
        subst hs
        obtain ⟨ih1, ih2, ih3, ih4, ih5, ih6⟩ := ih s rest1 s1 a ha hr hallRest hndRest
        obtain ⟨c1, c2, c3⟩ := phase2_keep_combine (placesStmt (.ret e))
          (placesList rest) (placesList rest1) a s.counter s1.counter hall hnd ih4 ih5 ih6
        rw [show max s.counter s1.counter = s1.counter by omega] at c1
        exact ⟨ih1, ih2, ih3, c1, c2, c3⟩
    | assign op x v =>
      simp only [ssaBlockPhase2] at h
      cases hr : ssaBlockPhase2 rest s with
      | error msg => rw [hr] at h; exact absurd h (by simp)
      | ok p =>
        obtain ⟨rest1, s1⟩ := p
        simp only [hr, Except.ok.injEq, Prod.mk.injEq] at h
        obtain ⟨hout, hs⟩ := h
        subst hout
        subst hs
        obtain ⟨ih1, ih2, ih3, ih4, ih5, ih6⟩ := ih s rest1 s1 a ha hr hallRest hndRest
        obtain ⟨c1, c2, c3⟩ := phase2_keep_combine (placesStmt (.assign op x v))
          (placesList rest) (placesList rest1) a s.counter s1.counter hall hnd ih4 ih5 ih6
        rw [show max s.counter s1.counter = s1.counter by omega] at c1
        exact ⟨ih1, ih2, ih3, c1, c2, c3⟩
    | console f =>
      simp only [ssaBlockPhase2] at h
      cases hr : ssaBlockPhase2 rest s with
      | error msg => rw [hr] at h; exact absurd h (by simp)
      | ok p =>
        obtain ⟨rest1, s1⟩ := p
        simp only [hr, Except.ok.injEq, Prod.mk.injEq] at h
        obtain ⟨hout, hs⟩ := h
        subst hout
        subst hs
        obtain ⟨ih1, ih2, ih3, ih4, ih5, ih6⟩ := ih s rest1 s1 a ha hr hallRest hndRest
        obtain ⟨c1, c2, c3⟩ := phase2_keep_combine (placesStmt (.console f))
          (placesList rest) (placesList rest1) a s.counter s1.counter hall hnd ih4 ih5 ih6
        rw [show max s.counter s1.counter = s1.counter by omega] at c1
        exact ⟨ih1, ih2, ih3, c1, c2, c3⟩
    | block stmts2 =>
      simp only [ssaBlockPhase2] at h
      cases hr : ssaBlockPhase2 rest s with
      | error msg => rw [hr] at h; exact absurd h (by simp)
      | ok p =>
        obtain ⟨rest1, s1⟩ := p
        simp only [hr, Except.ok.injEq, Prod.mk.injEq] at h
        obtain ⟨hout, hs⟩ := h
        subst hout
        subst hs
        obtain ⟨ih1, ih2, ih3, ih4, ih5, ih6⟩ := ih s rest1 s1 a ha hr hallRest hndRest
        obtain ⟨c1, c2, c3⟩ := phase2_keep_combine (placesStmt (.block stmts2))
          (placesList rest) (placesList rest1) a s.counter s1.counter hall hnd ih4 ih5 ih6
        rw [show max s.counter s1.counter = s1.counter by omega] at c1
        exact ⟨ih1, ih2, ih3, c1, c2, c3⟩
    | conditional c blk next =>
      cases c with
      | err =>
        simp only [ssaBlockPhase2] at h
        exact absurd h (by simp)
      | ident y =>
        simp only [ssaBlockPhase2] at h
        cases hr : ssaBlockPhase2 rest s with
        | error msg => rw [hr] at h; exact absurd h (by simp)
        | ok p =>
          obtain ⟨rest1, s1⟩ := p
          simp only [hr, Except.ok.injEq, Prod.mk.injEq] at h
          obtain ⟨hout, hs⟩ := h
          subst hout
          subst hs
          obtain ⟨ih1, ih2, ih3, ih4, ih5, ih6⟩ := ih s rest1 s1 a ha hr hallRest hndRest
          obtain ⟨c1, c2, c3⟩ := phase2_keep_combine
            (placesStmt (.conditional (.ident y) blk next))
            (placesList rest) (placesList rest1) a s.counter s1.counter hall hnd ih4 ih5 ih6
          rw [show max s.counter s1.counter = s1.counter by omega] at c1
          exact ⟨ih1, ih2, ih3, c1, c2, c3⟩
      | value v =>
        simp only [ssaBlockPhase2] at h
        cases hr : ssaBlockPhase2 rest s with
        | error msg => rw [hr] at h; exact absurd h (by simp)
        | ok p =>
          obtain ⟨rest1, s1⟩ := p
          simp only [hr, Except.ok.injEq, Prod.mk.injEq] at h
          obtain ⟨hout, hs⟩ := h
          subst hout
          subst hs
          obtain ⟨ih1, ih2, ih3, ih4, ih5, ih6⟩ := ih s rest1 s1 a ha hr hallRest hndRest
          obtain ⟨c1, c2, c3⟩ := phase2_keep_combine
            (placesStmt (.conditional (.value v) blk next))
            (placesList rest) (placesList rest1) a s.counter s1.counter hall hnd ih4 ih5 ih6
          rw [show max s.counter s1.counter = s1.counter by omega] at c1
          exact ⟨ih1, ih2, ih3, c1, c2, c3⟩
      | binary op l r =>
        simp only [ssaBlockPhase2, getUniqueId] at h
        cases hr : ssaBlockPhase2 rest { s with counter := s.counter + 1 } with
        | error msg => rw [hr] at h; exact absurd h (by simp)
        | ok p =>
          obtain ⟨rest1, s1⟩ := p
          simp only [hr, Except.ok.injEq, Prod.mk.injEq] at h
          obtain ⟨hout, hs⟩ := h
          subst hout
          subst hs
          have hsucc : s.counter + 1 ≤ s1.counter ∧ s1.renameTable = s.renameTable ∧
              s1.phiFunctions = s.phiFunctions ∧
              (∀ p ∈ placesList rest1, ∃ base i, p = Sym.dollar base i ∧ a ≤ i ∧ i < s1.counter) ∧
              ((placesList rest1).map placeId).Nodup ∧
              (∀ i ∈ (placesList rest1).map placeId,
                i ∈ (placesList rest).map placeId ∨ (s.counter + 1 ≤ i ∧ i < s1.counter)) :=
            ih { s with counter := s.counter + 1 } rest1 s1 a (Nat.le_succ_of_le ha) hr
              (fun p hp => by
                obtain ⟨base, i, h1, h2, h3⟩ := hallRest p hp
                exact ⟨base, i, h1, h2, Nat.lt_succ_of_lt h3⟩) hndRest
          obtain ⟨ih1, ih2, ih3, ih4, ih5, ih6⟩ := hsucc
          obtain ⟨c1, c2, c3⟩ := phase2_hoist_combine
            (placesStmt (.conditional (.binary op l r) blk next))
            (placesList rest) (placesList rest1) a s.counter s1.counter ih1
            hall hnd ih4 ih5 ih6
          rw [Nat.min_eq_left ha] at c1
          refine ⟨by omega, ih2, ih3, ?_, ?_, ?_⟩
          · simpa [placesList, placesStmt] using c1
          · simpa [placesList, placesStmt] using c2
          · simpa [placesList, placesStmt] using c3
      | unary op e =>
        simp only [ssaBlockPhase2, getUniqueId] at h
        cases hr : ssaBlockPhase2 rest { s with counter := s.counter + 1 } with
        | error msg => rw [hr] at h; exact absurd h (by simp)
        | ok p =>
          obtain ⟨rest1, s1⟩ := p
          simp only [hr, Except.ok.injEq, Prod.mk.injEq] at h
          obtain ⟨hout, hs⟩ := h
          subst hout
          subst hs
          have hsucc : s.counter + 1 ≤ s1.counter ∧ s1.renameTable = s.renameTable ∧
              s1.phiFunctions = s.phiFunctions ∧
              (∀ p ∈ placesList rest1, ∃ base i, p = Sym.dollar base i ∧ a ≤ i ∧ i < s1.counter) ∧
              ((placesList rest1).map placeId).Nodup ∧
              (∀ i ∈ (placesList rest1).map placeId,
                i ∈ (placesList rest).map placeId ∨ (s.counter + 1 ≤ i ∧ i < s1.counter)) :=
            ih { s with counter := s.counter + 1 } rest1 s1 a (Nat.le_succ_of_le ha) hr
              (fun p hp => by
                obtain ⟨base, i, h1, h2, h3⟩ := hallRest p hp
                exact ⟨base, i, h1, h2, Nat.lt_succ_of_lt h3⟩) hndRest
          obtain ⟨ih1, ih2, ih3, ih4, ih5, ih6⟩ := hsucc
          obtain ⟨c1, c2, c3⟩ := phase2_hoist_combine
            (placesStmt (.conditional (.unary op e) blk next))
            (placesList rest) (placesList rest1) a s.counter s1.counter ih1
            hall hnd ih4 ih5 ih6
          rw [Nat.min_eq_left ha] at c1
          refine ⟨by omega, ih2, ih3, ?_, ?_, ?_⟩
          · simpa [placesList, placesStmt] using c1
          · simpa [placesList, placesStmt] using c2
          · simpa [placesList, placesStmt] using c3
      | ternary cc tt ff =>
        simp only [ssaBlockPhase2, getUniqueId] at h
        cases hr : ssaBlockPhase2 rest { s with counter := s.counter + 1 } with
        | error msg => rw [hr] at h; exact absurd h (by simp)
        | ok p =>
          obtain ⟨rest1, s1⟩ := p
          simp only [hr, Except.ok.injEq, Prod.mk.injEq] at h
          obtain ⟨hout, hs⟩ := h
          subst hout
          subst hs
          have hsucc : s.counter + 1 ≤ s1.counter ∧ s1.renameTable = s.renameTable ∧
              s1.phiFunctions = s.phiFunctions ∧
              (∀ p ∈ placesList rest1, ∃ base i, p = Sym.dollar base i ∧ a ≤ i ∧ i < s1.counter) ∧
              ((placesList rest1).map placeId).Nodup ∧
              (∀ i ∈ (placesList rest1).map placeId,
                i ∈ (placesList rest).map placeId ∨ (s.counter + 1 ≤ i ∧ i < s1.counter)) :=
            ih { s with counter := s.counter + 1 } rest1 s1 a (Nat.le_succ_of_le ha) hr
              (fun p hp => by
                obtain ⟨base, i, h1, h2, h3⟩ := hallRest p hp
                exact ⟨base, i, h1, h2, Nat.lt_succ_of_lt h3⟩) hndRest
          obtain ⟨ih1, ih2, ih3, ih4, ih5, ih6⟩ := hsucc
          obtain ⟨c1, c2, c3⟩ := phase2_hoist_combine
            (placesStmt (.conditional (.ternary cc tt ff) blk next))
            (placesList rest) (placesList rest1) a s.counter s1.counter ih1
            hall hnd ih4 ih5 ih6
          rw [Nat.min_eq_left ha] at c1
          refine ⟨by omega, ih2, ih3, ?_, ?_, ?_⟩
          · simpa [placesList, placesStmt] using c1
          · simpa [placesList, placesStmt] using c2
          · simpa [placesList, placesStmt] using c3

/-- `placesList` distributes over list append. -/
theorem placesList_append (a b : List Statement) :
    placesList (a ++ b) = placesList a ++ placesList b := by
  induction a with
  | nil => simp [placesList]
  | cons st rest ih => simp [placesList, ih]

/-- A left-hand-side identifier reduction, fully computed. -/
theorem reduceIdentifier_true (x : Sym) (s : SsaState) :
    reduceIdentifier true x s =
      .ok (Sym.dollar x s.counter,
        { s with counter := s.counter + 1
               , renameTable := s.renameTable.update x (Sym.dollar x s.counter) }) := rfl

/-- Lookup in a frame with a parent is the local lookup with parent fallback. -/
theorem lookup_mk_some (pre : RenameTable) (m : List (Sym × Sym)) (k : Sym) :
    RenameTable.lookup (.mk (some pre) m) k =
      (lookupMapping m k).orElse (fun _ => pre.lookup k) := by
  rw [RenameTable.lookup]
  cases lookupMapping m k <;> rfl

/-- The φ-loop implements the claim's φ construction: when every symbol of the
write set resolves (locally or through the pre-conditional fallback) it
returns exactly the `specPhis` assignments appended to the buffer, the new
names recorded in the current frame and the counter advanced once per symbol;
when some symbol resolves on neither path it panics. -/
theorem phiLoop_spec (cond : Expression) (pre : RenameTable) (mIf mElse : List (Sym × Sym))
    (syms : List Sym) (s : SsaState) :
    (∀ phis, specPhis cond pre mIf mElse s.counter syms = some phis →
      phiLoop cond (.mk (some pre) mIf) (.mk (some pre) mElse) syms s =
        .ok { renameTable := recordPhiNames s.renameTable s.counter syms
            , counter := s.counter + syms.length
            , phiFunctions := s.phiFunctions ++ phis })
    ∧ (specPhis cond pre mIf mElse s.counter syms = none →
      ∃ msg, phiLoop cond (.mk (some pre) mIf) (.mk (some pre) mElse) syms s = .error msg) := by
  induction syms generalizing s with
  | nil =>
    constructor
    · intro phis hp
      rw [specPhis, Option.some.injEq] at hp
      subst hp
      rw [phiLoop]
      simp [recordPhiNames]
    · intro hp
      rw [specPhis] at hp
      exact absurd hp (by simp)
  | cons sym rest ih =>
    constructor
    · intro phis hp
      rw [specPhis] at hp
      cases hphi : specPhi cond pre mIf mElse s.counter sym with
      | none => rw [hphi] at hp; exact absurd hp (by simp)
      | some phi =>
        rw [hphi] at hp
        cases hrest : specPhis cond pre mIf mElse (s.counter + 1) rest with
        | none => rw [hrest] at hp; exact absurd hp (by simp)
        | some phis2 =>
          rw [hrest, Option.some.injEq] at hp
          subst hp
          rw [specPhi] at hphi
          rw [phiLoop, lookup_mk_some, lookup_mk_some]
          cases hifl : (lookupMapping mIf sym).orElse (fun _ => pre.lookup sym) with
          | none => rw [hifl] at hphi; exact absurd hphi (by simp)
          | some ifName =>
            rw [hifl] at hphi
            cases hell : (lookupMapping mElse sym).orElse (fun _ => pre.lookup sym) with
            | none => rw [hell] at hphi; exact absurd hphi (by simp)
            | some elseName =>
              rw [hell, Option.some.injEq] at hphi
              subst hphi
              simp only [getUniqueId]
              have hstep := (ih { renameTable := s.renameTable.update sym (Sym.dollar sym s.counter), counter := s.counter + 1, phiFunctions := s.phiFunctions ++ [Statement.assign .assign (Sym.dollar sym s.counter) (.ternary cond (.ident ifName) (.ident elseName))] }).1 phis2
              rw [hstep hrest]
              rw [Except.ok.injEq, SsaState.mk.injEq]
              refine ⟨?_, by simp; omega, by simp⟩
              simp [recordPhiNames]
    · intro hp
      rw [specPhis] at hp
      cases hphi : specPhi cond pre mIf mElse s.counter sym with
      | some phi =>
        rw [hphi] at hp
        cases hrest : specPhis cond pre mIf mElse (s.counter + 1) rest with
        | some phis2 => rw [hrest] at hp; exact absurd hp (by simp)
        | none =>
          rw [specPhi] at hphi
          rw [phiLoop, lookup_mk_some, lookup_mk_some]
          cases hifl : (lookupMapping mIf sym).orElse (fun _ => pre.lookup sym) with
          | none => rw [hifl] at hphi; exact absurd hphi (by simp)
          | some ifName =>
            rw [hifl] at hphi
            cases hell : (lookupMapping mElse sym).orElse (fun _ => pre.lookup sym) with
            | none => rw [hell] at hphi; exact absurd hphi (by simp)
            | some elseName =>
              rw [hell] at hphi
              simp only [getUniqueId]
              obtain ⟨msg, hmsg⟩ := (ih { renameTable := s.renameTable.update sym (Sym.dollar sym s.counter), counter := s.counter + 1, phiFunctions := s.phiFunctions ++ [Statement.assign .assign (Sym.dollar sym s.counter) (.ternary cond (.ident ifName) (.ident elseName))] }).2 (by simpa using hrest)
              exact ⟨msg, by simpa using hmsg⟩
      | none =>
        rw [specPhi] at hphi
        rw [phiLoop, lookup_mk_some, lookup_mk_some]
        cases hifl : (lookupMapping mIf sym).orElse (fun _ => pre.lookup sym) with
        | none => exact ⟨_, rfl⟩
        | some ifName =>
          rw [hifl] at hphi
          cases hell : (lookupMapping mElse sym).orElse (fun _ => pre.lookup sym) with
          | none => exact ⟨_, rfl⟩
          | some elseName => rw [hell] at hphi; exact absurd hphi (by simp)

set_option maxHeartbeats 1600000 in
mutual

/-- The statement walk of the SSA pass, entered with an empty φ-buffer: the
counter never decreases, the parent of the current frame is preserved, the
assignment places of the result and of the pending φ-assignments are pairwise
distinct fresh names of the step's counter range, and a non-conditional
statement leaves the φ-buffer empty. -/
theorem ssaStatement_inv (stmt : Statement) (s : SsaState) (r : Statement) (s' : SsaState)
    (hphi : s.phiFunctions = [])
    (h : ssaStatement stmt s = .ok (r, s')) :
    s.counter ≤ s'.counter ∧ s'.renameTable.parent = s.renameTable.parent ∧
    FreshSeg (placesStmt r ++ placesList s'.phiFunctions) s.counter s'.counter ∧
    (isCondStmt stmt = false → s'.phiFunctions = []) := by
  cases stmt with
  | ret e =>
    simp only [ssaStatement] at h
    cases he : reduceExpression e s with
    | error msg => simp only [he] at h; exact absurd h (by simp)
    | ok p =>
      obtain ⟨e1, s1⟩ := p
      simp only [he, Except.ok.injEq, Prod.mk.injEq] at h
      obtain ⟨hr, hs⟩ := h
      subst hr
      have hs1 : s1 = s := reduceExpression_state _ _ _ _ he
      rw [← hs, hs1]
      exact ⟨le_refl _, rfl,
        by simpa [placesStmt, placesList, hphi] using FreshSeg.nil s.counter s.counter,
        fun _ => hphi⟩
  | definition x ty v =>
    simp only [ssaStatement, reduceDefinitionStmt, reduceIdentifier_true] at h
    cases hv : reduceExpression v { s with counter := s.counter + 1, renameTable := s.renameTable.update x (Sym.dollar x s.counter) } with
    | error msg => simp only [hv] at h; exact absurd h (by simp)
    | ok p =>
      obtain ⟨v1, s2⟩ := p
      simp only [hv, Except.ok.injEq, Prod.mk.injEq] at h
      obtain ⟨hr, hs⟩ := h
      subst hr
      have hs2 : s2 = { s with counter := s.counter + 1, renameTable := s.renameTable.update x (Sym.dollar x s.counter) } :=
        reduceExpression_state _ _ _ _ hv
      rw [← hs, hs2]
      refine ⟨?_, ?_, ?_, fun _ => ?_⟩
      · exact Nat.le_succ s.counter
      · exact RenameTable.parent_update s.renameTable x (Sym.dollar x s.counter)
      · simpa [placesStmt, placesList, hphi] using FreshSeg.single x s.counter
      · exact hphi
  | assign op x v =>
    simp only [ssaStatement, reduceAssignStmt, reduceIdentifier_true] at h
    cases hv : reduceExpression v { s with counter := s.counter + 1, renameTable := s.renameTable.update x (Sym.dollar x s.counter) } with
    | error msg => simp only [hv] at h; exact absurd h (by simp)
    | ok p =>
      obtain ⟨v1, s2⟩ := p
      simp only [hv, Except.ok.injEq, Prod.mk.injEq] at h
      obtain ⟨hr, hs⟩ := h
      subst hr
      have hs2 : s2 = { s with counter := s.counter + 1, renameTable := s.renameTable.update x (Sym.dollar x s.counter) } :=
        reduceExpression_state _ _ _ _ hv
      rw [← hs, hs2]
      refine ⟨?_, ?_, ?_, fun _ => ?_⟩
      · exact Nat.le_succ s.counter
      · exact RenameTable.parent_update s.renameTable x (Sym.dollar x s.counter)
      · simpa [placesStmt, placesList, hphi] using FreshSeg.single x s.counter
      · exact hphi
  | console f =>
    cases f with
    | assert e =>
      simp only [ssaStatement] at h
      cases he : reduceExpression e s with
      | error msg => simp only [he] at h; exact absurd h (by simp)
      | ok p =>
        obtain ⟨e1, s1⟩ := p
        simp only [he, Except.ok.injEq, Prod.mk.injEq] at h
        obtain ⟨hr, hs⟩ := h
        subst hr
        have hs1 : s1 = s := reduceExpression_state _ _ _ _ he
        rw [← hs, hs1]
        exact ⟨le_refl _, rfl,
          by simpa [placesStmt, placesList, hphi] using FreshSeg.nil s.counter s.counter,
          fun _ => hphi⟩
    | error args =>
      simp only [ssaStatement] at h
      cases he : reduceExpressionList args s with
      | error msg => simp only [he] at h; exact absurd h (by simp)
      | ok p =>
        obtain ⟨args1, s1⟩ := p
        simp only [he, Except.ok.injEq, Prod.mk.injEq] at h
        obtain ⟨hr, hs⟩ := h
        subst hr
        have hs1 : s1 = s := reduceExpressionList_state _ _ _ _ he
        rw [← hs, hs1]
        exact ⟨le_refl _, rfl,
          by simpa [placesStmt, placesList, hphi] using FreshSeg.nil s.counter s.counter,
          fun _ => hphi⟩
    | log args =>
      simp only [ssaStatement] at h
      cases he : reduceExpressionList args s with
      | error msg => simp only [he] at h; exact absurd h (by simp)
      | ok p =>
        obtain ⟨args1, s1⟩ := p
        simp only [he, Except.ok.injEq, Prod.mk.injEq] at h
        obtain ⟨hr, hs⟩ := h
        subst hr
        have hs1 : s1 = s := reduceExpressionList_state _ _ _ _ he
        rw [← hs, hs1]
        exact ⟨le_refl _, rfl,
          by simpa [placesStmt, placesList, hphi] using FreshSeg.nil s.counter s.counter,
          fun _ => hphi⟩
  | block stmts =>
    simp only [ssaStatement] at h
    cases hl : ssaStatementList stmts s with
    | error msg => simp only [hl] at h; exact absurd h (by simp)
    | ok p =>
      obtain ⟨stmts1, s1⟩ := p
      simp only [hl] at h
      obtain ⟨l1, l2, l3, l4⟩ := ssaStatementList_inv stmts s stmts1 s1 hphi hl
      cases hp : ssaBlockPhase2 stmts1 s1 with
      | error msg => simp only [hp] at h; exact absurd h (by simp)
      | ok q =>
        obtain ⟨stmts2, s2⟩ := q
        simp only [hp, Except.ok.injEq, Prod.mk.injEq] at h
        obtain ⟨hr, hs⟩ := h
        subst hr
        obtain ⟨p1, p2, p3, p4, p5, p6⟩ := ssaBlockPhase2_inv stmts1 s1 stmts2 s2 s.counter l1 hp l3.1 l3.2
        rw [← hs]
        refine ⟨le_trans l1 p1, ?_, ?_, fun _ => p3.trans l4⟩
        · rw [p2]; exact l2
        · simpa [placesStmt, p3, l4, placesList] using
            (⟨p4, p5⟩ : FreshSeg (placesList stmts2) s.counter s2.counter)
  | conditional cond blk next =>
    simp only [ssaStatement] at h
    cases hc : reduceExpression cond s with
    | error msg => simp only [hc] at h; exact absurd h (by simp)
    | ok p =>
      obtain ⟨cond1, s1⟩ := p
      have hs1 : s = s1 := (reduceExpression_state _ _ _ _ hc).symm
      subst hs1
      simp only [hc] at h
      cases hb : ssaStatementList blk (ssaPush s) with
      | error msg => simp only [hb] at h; exact absurd h (by simp)
      | ok pb =>
        obtain ⟨blk0, s2⟩ := pb
        simp only [hb] at h
        obtain ⟨l1, l2, l3, l4⟩ := ssaStatementList_inv blk (ssaPush s) blk0 s2 hphi hb
        cases hp2 : ssaBlockPhase2 blk0 s2 with
        | error msg => simp only [hp2] at h; exact absurd h (by simp)
        | ok pp =>
          obtain ⟨blk1, s2'⟩ := pp
          simp only [hp2] at h
          obtain ⟨p1, p2, p3, p4, p5, p6⟩ := ssaBlockPhase2_inv blk0 s2 blk1 s2' s.counter l1 hp2 l3.1 l3.2
          have hpar2 : s2'.renameTable.parent = some s.renameTable := by rw [p2]; exact l2
          rcases hmk : s2'.renameTable with ⟨pp2, m2⟩
          rw [hmk] at hpar2
          simp only [RenameTable.parent] at hpar2
          subst hpar2
          simp only [ssaPop, hmk] at h
          cases hn : ssaNext next (ssaPush { s2' with renameTable := s.renameTable }) with
          | error msg => simp only [hn] at h; exact absurd h (by simp)
          | ok pn =>
            obtain ⟨next1, s4⟩ := pn
            simp only [hn] at h
            obtain ⟨n1, n2, n3⟩ := ssaNext_inv next (ssaPush { s2' with renameTable := s.renameTable }) next1 s4 (p3.trans l4) hn
            have hpar4 : s4.renameTable.parent = some s.renameTable := n2
            rcases hmk4 : s4.renameTable with ⟨pp4, m4⟩
            rw [hmk4] at hpar4
            simp only [RenameTable.parent] at hpar4
            subst hpar4
            simp only [ssaPop, hmk4] at h
            cases hpl : phiLoop cond1 (RenameTable.mk (some s.renameTable) m2) (RenameTable.mk (some s.renameTable) m4) (unionOrdered (RenameTable.mk (some s.renameTable) m2).localNames (RenameTable.mk (some s.renameTable) m4).localNames) { s4 with renameTable := s.renameTable } with
            | error msg => simp only [hpl] at h; exact absurd h (by simp)
            | ok s6 =>
              simp only [hpl, Except.ok.injEq, Prod.mk.injEq] at h
              obtain ⟨q1, q2, newPhis, q3, q4⟩ := phiLoop_inv _ _ _ _ _ _ hpl
              obtain ⟨hr, hs⟩ := h
              subst hr
              subst hs
              have hA : FreshSeg (placesList blk1) s.counter s2'.counter := ⟨p4, p5⟩
              have hn1 : s2'.counter ≤ s4.counter := n1
              have hBC := FreshSeg.append _ _ s2'.counter s4.counter _ hn1 q1 n3 q4
              have hABC := FreshSeg.append _ _ s.counter s2'.counter _ (le_trans l1 p1) (le_trans hn1 q1) hA hBC
              refine ⟨le_trans l1 (le_trans p1 (le_trans hn1 q1)), ?_, ?_, ?_⟩
              · exact q2
              · simpa [placesStmt, q3, placesList_append, List.append_assoc] using hABC
              · intro hcc
                simp [isCondStmt] at hcc
termination_by sizeOf stmt

/-- The `next` arm of a conditional, entered with an empty φ-buffer: same
counter, parent and freshness invariants as `ssaStatement_inv`. -/
theorem ssaNext_inv (next : Option Statement) (s : SsaState) (r : Option Statement)
    (s' : SsaState) (hphi : s.phiFunctions = [])
    (h : ssaNext next s = .ok (r, s')) :
    s.counter ≤ s'.counter ∧ s'.renameTable.parent = s.renameTable.parent ∧
    FreshSeg (placesNext r ++ placesList s'.phiFunctions) s.counter s'.counter := by
  cases next with
  | none =>
    rw [ssaNext, Except.ok.injEq, Prod.mk.injEq] at h
    obtain ⟨hr, hs⟩ := h
    subst hr
    rw [← hs]
    exact ⟨le_refl _, rfl,
      by simpa [placesNext, placesList, hphi] using FreshSeg.nil s.counter s.counter⟩
  | some st =>
    simp only [ssaNext] at h
    cases hst : ssaStatement st s with
    | error msg => simp only [hst] at h; exact absurd h (by simp)
    | ok p =>
      obtain ⟨st1, s1⟩ := p
      simp only [hst, Except.ok.injEq, Prod.mk.injEq] at h
      obtain ⟨hr, hs⟩ := h
      subst hr
      subst hs
      obtain ⟨i1, i2, i3, i4⟩ := ssaStatement_inv st s st1 s1 hphi hst
      exact ⟨i1, i2, by simpa [placesNext] using i3⟩
termination_by sizeOf next

/-- Phase one of `reduce_block`, entered with an empty φ-buffer: counter
monotone, parent preserved, the output's places are pairwise distinct fresh
names of the step's counter range, and the φ-buffer leaves empty (every
conditional's φ-assignments are drained into the list right after it). -/
theorem ssaStatementList_inv (stmts : List Statement) (s : SsaState) (out : List Statement)
    (s' : SsaState) (hphi : s.phiFunctions = [])
    (h : ssaStatementList stmts s = .ok (out, s')) :
    s.counter ≤ s'.counter ∧ s'.renameTable.parent = s.renameTable.parent ∧
    FreshSeg (placesList out) s.counter s'.counter ∧ s'.phiFunctions = [] := by
  cases stmts with
  | nil =>
    rw [ssaStatementList, Except.ok.injEq, Prod.mk.injEq] at h
    obtain ⟨hr, hs⟩ := h
    subst hr
    rw [← hs]
    exact ⟨le_refl _, rfl, by simpa [placesList] using FreshSeg.nil s.counter s.counter, hphi⟩
  | cons stmt rest =>
    simp only [ssaStatementList] at h
    cases hst : ssaStatement stmt s with
    | error msg => simp only [hst] at h; exact absurd h (by simp)
    | ok p =>
      obtain ⟨stmt1, s1⟩ := p
      simp only [hst] at h
      obtain ⟨i1, i2, i3, i4⟩ := ssaStatement_inv stmt s stmt1 s1 hphi hst
      cases stmt
      case conditional cond blk next =>
        cases hrest : ssaStatementList rest { s1 with phiFunctions := [] } with
        | error msg => simp only [hrest] at h; exact absurd h (by simp)
        | ok q =>
          obtain ⟨rest1, s3⟩ := q
          simp only [hrest, Except.ok.injEq, Prod.mk.injEq] at h
          obtain ⟨hr, hs⟩ := h
          subst hr
          subst hs
          obtain ⟨j1, j2, j3, j4⟩ := ssaStatementList_inv rest { s1 with phiFunctions := [] } rest1 s3 rfl hrest
          refine ⟨le_trans i1 j1, j2.trans i2, ?_, j4⟩
          have hAB := FreshSeg.append (placesStmt stmt1 ++ placesList s1.phiFunctions) (placesList rest1) s.counter s1.counter s3.counter i1 j1 i3 j3
          simpa [placesList, placesList_append, List.append_assoc] using hAB
      all_goals
        cases hrest : ssaStatementList rest s1 with
        | error msg => simp only [hrest] at h; exact absurd h (by simp)
        | ok q =>
          obtain ⟨rest1, s3⟩ := q
          simp only [hrest, Except.ok.injEq, Prod.mk.injEq] at h
          obtain ⟨hr, hs⟩ := h
          subst hr
          subst hs
          obtain ⟨j1, j2, j3, j4⟩ := ssaStatementList_inv rest s1 rest1 s3 (i4 rfl) hrest
          refine ⟨le_trans i1 j1, j2.trans i2, ?_, j4⟩
          have hA : FreshSeg (placesStmt stmt1) s.counter s1.counter := by
            simpa [i4 rfl, placesList] using i3
          have hAB := FreshSeg.append (placesStmt stmt1) (placesList rest1) s.counter s1.counter s3.counter i1 j1 hA j3
          simpa [placesList] using hAB
termination_by sizeOf stmts

end

/-- Seeding the parameter bindings touches only the rename table: the counter
and the φ-buffer of the folded state are those of the start state. -/
theorem ssaSeed_foldl_fields (params : List Sym) (s : SsaState) :
    (List.foldl (fun acc p => { acc with renameTable := acc.renameTable.update p p }) s params).counter = s.counter ∧
    (List.foldl (fun acc p => { acc with renameTable := acc.renameTable.update p p }) s params).phiFunctions = s.phiFunctions := by
  induction params generalizing s with
  | nil => exact ⟨rfl, rfl⟩
  | cons p rest ih =>
    simpa [List.foldl] using ih { s with renameTable := s.renameTable.update p p }

/-- Concrete run of the SSA pass on the φ scenario, evaluated step by step:
the statement-level reductions are computed first and the block walk is then
assembled from them. -/
theorem phiBody_ssa_eval : runSsaFunction [symC, symA, symB] phiBody = .ok phiSsaOut := by
  have h1 : ssaStatement (.definition symX .u8 (.value (.u8lit 0))) { renameTable := RenameTable.mk (some (.mk none [])) [(symC, symC), (symA, symA), (symB, symB)], counter := 0, phiFunctions := [] } = .ok (.definition (Sym.dollar symX 0) .u8 (.value (.u8lit 0)), { renameTable := RenameTable.mk (some (.mk none [])) [(symC, symC), (symA, symA), (symB, symB), (symX, Sym.dollar symX 0)], counter := 1, phiFunctions := [] }) := rfl
  have h2 : ssaStatement (.conditional (.ident symC) [ .assign .assign symX (.ident symA) ] (some (.block [ .assign .assign symX (.ident symB) ]))) { renameTable := RenameTable.mk (some (.mk none [])) [(symC, symC), (symA, symA), (symB, symB), (symX, Sym.dollar symX 0)], counter := 1, phiFunctions := [] } = .ok (.conditional (.ident symC) [ .assign .assign (Sym.dollar symX 1) (.ident symA) ] (some (.block [ .assign .assign (Sym.dollar symX 2) (.ident symB) ])), { renameTable := RenameTable.mk (some (.mk none [])) [(symC, symC), (symA, symA), (symB, symB), (symX, Sym.dollar symX 3)], counter := 4, phiFunctions := [ .assign .assign (Sym.dollar symX 3) (.ternary (.ident symC) (.ident (Sym.dollar symX 1)) (.ident (Sym.dollar symX 2))) ] }) := rfl
  have h3 : ssaStatement (.ret (.ident symX)) { renameTable := RenameTable.mk (some (.mk none [])) [(symC, symC), (symA, symA), (symB, symB), (symX, Sym.dollar symX 3)], counter := 4, phiFunctions := [] } = .ok (.ret (.ident (Sym.dollar symX 3)), { renameTable := RenameTable.mk (some (.mk none [])) [(symC, symC), (symA, symA), (symB, symB), (symX, Sym.dollar symX 3)], counter := 4, phiFunctions := [] }) := rfl
  have hlist : ssaStatementList phiBody { renameTable := RenameTable.mk (some (.mk none [])) [(symC, symC), (symA, symA), (symB, symB)], counter := 0, phiFunctions := [] } = .ok ([ .definition (Sym.dollar symX 0) .u8 (.value (.u8lit 0)), .conditional (.ident symC) [ .assign .assign (Sym.dollar symX 1) (.ident symA) ] (some (.block [ .assign .assign (Sym.dollar symX 2) (.ident symB) ])), .assign .assign (Sym.dollar symX 3) (.ternary (.ident symC) (.ident (Sym.dollar symX 1)) (.ident (Sym.dollar symX 2))), .ret (.ident (Sym.dollar symX 3)) ], { renameTable := RenameTable.mk (some (.mk none [])) [(symC, symC), (symA, symA), (symB, symB), (symX, Sym.dollar symX 3)], counter := 4, phiFunctions := [] }) := by
    simp only [phiBody, ssaStatementList, h1, h2, h3, List.nil_append, List.append_nil, List.cons_append, List.singleton_append]
  have hphase2 : ssaBlockPhase2 [ .definition (Sym.dollar symX 0) .u8 (.value (.u8lit 0)), .conditional (.ident symC) [ .assign .assign (Sym.dollar symX 1) (.ident symA) ] (some (.block [ .assign .assign (Sym.dollar symX 2) (.ident symB) ])), .assign .assign (Sym.dollar symX 3) (.ternary (.ident symC) (.ident (Sym.dollar symX 1)) (.ident (Sym.dollar symX 2))), .ret (.ident (Sym.dollar symX 3)) ] { renameTable := RenameTable.mk (some (.mk none [])) [(symC, symC), (symA, symA), (symB, symB), (symX, Sym.dollar symX 3)], counter := 4, phiFunctions := [] } = .ok (phiSsaOut, { renameTable := RenameTable.mk (some (.mk none [])) [(symC, symC), (symA, symA), (symB, symB), (symX, Sym.dollar symX 3)], counter := 4, phiFunctions := [] }) := rfl
  have hfold : List.foldl (fun acc p => { acc with renameTable := acc.renameTable.update p p }) (ssaPush { renameTable := RenameTable.mk none [], counter := 0, phiFunctions := [] }) [symC, symA, symB] = { renameTable := RenameTable.mk (some (.mk none [])) [(symC, symC), (symA, symA), (symB, symB)], counter := 0, phiFunctions := [] } := rfl
  simp only [runSsaFunction, ssaFunction, ssaBlock, hfold, hlist, hphase2, ssaPop]

set_option maxHeartbeats 1600000 in
/-- C2.  The φ-construction of `reduce_conditional`: for each symbol of the
write-set union, in insertion order, exactly one assignment `new = c ? t : f`
is emitted, where `t` (resp. `f`) is the symbol's binding in the popped
if-frame (resp. else-frame) with fallback to the pre-conditional table when the
symbol was written on only one side, and `new = s$counter` is a fresh name
recorded in the enclosing frame (first conjunct, stated against the spec-side
`specPhis` / `recordPhiNames`); phase one of `reduce_block` splices the drained
φ-assignments immediately after the conditional in the enclosing block (second
conjunct); and the scenario `let x: u8 = 0u8; if c { x = a; } else { x = b; }
return x;` yields `assign x$3 = c ? x$1 : x$2` right after the conditional,
followed by `return x$3` (third conjunct). -/
theorem ssa_phi_insertion :
    (∀ (cond : Expression) (pre : RenameTable) (mIf mElse : List (Sym × Sym))
        (syms : List Sym) (s : SsaState) (phis : List Statement),
      specPhis cond pre mIf mElse s.counter syms = some phis →
      phiLoop cond (.mk (some pre) mIf) (.mk (some pre) mElse) syms s =
        .ok { renameTable := recordPhiNames s.renameTable s.counter syms
            , counter := s.counter + syms.length
            , phiFunctions := s.phiFunctions ++ phis }) ∧
    (∀ (cond : Expression) (blk : List Statement) (next : Option Statement)
        (rest : List Statement) (s : SsaState) (out : List Statement) (s' : SsaState),
      ssaStatementList (.conditional cond blk next :: rest) s = .ok (out, s') →
      ∃ stmt1 s1 rest1,
        ssaStatement (.conditional cond blk next) s = .ok (stmt1, s1) ∧
        ssaStatementList rest { s1 with phiFunctions := [] } = .ok (rest1, s') ∧
        out = stmt1 :: (s1.phiFunctions ++ rest1)) ∧
    runSsaFunction [symC, symA, symB] phiBody = .ok phiSsaOut := by
  refine ⟨fun cond pre mIf mElse syms s phis hp =>
    (phiLoop_spec cond pre mIf mElse syms s).1 phis hp, ?_, ?_⟩
  · intro cond blk next rest s out s' h
    simp only [ssaStatementList] at h
    cases hst : ssaStatement (.conditional cond blk next) s with
    | error msg => simp only [hst] at h; exact absurd h (by simp)
    | ok p =>
      obtain ⟨stmt1, s1⟩ := p
      simp only [hst] at h
      cases hrest : ssaStatementList rest { s1 with phiFunctions := [] } with
      | error msg => simp only [hrest] at h; exact absurd h (by simp)
      | ok q =>
        obtain ⟨rest1, s3⟩ := q
        simp only [hrest, Except.ok.injEq, Prod.mk.injEq] at h
        obtain ⟨hr, hs⟩ := h
        exact ⟨stmt1, s1, rest1, rfl, hs ▸ hrest, hr.symm⟩
  · exact phiBody_ssa_eval

/-- Witness for C2: the φ-construction applied to the popped frames of the
`phiBody` scenario, at counter 3, emits exactly `x$3 = c ? x$1 : x$2`. -/
theorem ssa_phi_insertion_witness :
    phiLoop (.ident symC)
        (.mk (some (.mk none [(symX, Sym.dollar symX 0)])) [(symX, Sym.dollar symX 1)])
        (.mk (some (.mk none [(symX, Sym.dollar symX 0)])) [(symX, Sym.dollar symX 2)])
        [symX]
        { renameTable := .mk none [(symX, Sym.dollar symX 0)], counter := 3, phiFunctions := [] } =
      .ok { renameTable := recordPhiNames (.mk none [(symX, Sym.dollar symX 0)]) 3 [symX]
          , counter := 3 + 1
          , phiFunctions := [] ++ [.assign .assign (Sym.dollar symX 3)
              (.ternary (.ident symC) (.ident (Sym.dollar symX 1)) (.ident (Sym.dollar symX 2)))] } :=
  ssa_phi_insertion.1 (.ident symC) (.mk none [(symX, Sym.dollar symX 0)])
    [(symX, Sym.dollar symX 1)] [(symX, Sym.dollar symX 2)] [symX]
    { renameTable := .mk none [(symX, Sym.dollar symX 0)], counter := 3, phiFunctions := [] }
    [.assign .assign (Sym.dollar symX 3)
      (.ternary (.ident symC) (.ident (Sym.dollar symX 1)) (.ident (Sym.dollar symX 2)))]
    rfl

set_option maxHeartbeats 1600000 in
/-- C6.  Single assignment: `get_unique_id` returns a value strictly below the
new counter and increments the counter by one, so successive calls return
strictly increasing values (first conjunct); every successful statement step of
the pass is counter-monotone (second conjunct); and for every function body the
pass outputs, the assignment places (definitions included, both arms of every
conditional counted) have pairwise distinct numeric ids and are pairwise
distinct symbols, so an identifier occurs as an `Assign` place at most once —
in particular at most once along any control-flow path (third conjunct). -/
theorem ssa_single_assignment :
    (∀ s : SsaState, (getUniqueId s).1 < (getUniqueId s).2.counter ∧
      (getUniqueId s).2.counter = s.counter + 1) ∧
    (∀ (stmt : Statement) (s : SsaState) (r : Statement) (s' : SsaState),
      s.phiFunctions = [] → ssaStatement stmt s = .ok (r, s') → s.counter ≤ s'.counter) ∧
    (∀ (params : List Sym) (body out : List Statement),
      runSsaFunction params body = .ok out →
      ((placesList out).map placeId).Nodup ∧ (placesList out).Nodup) := by
  refine ⟨fun s => ⟨Nat.lt_succ_self _, rfl⟩,
    fun stmt s r s' hphi h => (ssaStatement_inv stmt s r s' hphi h).1, ?_⟩
  intro params body out h
  rw [runSsaFunction] at h
  cases hf : ssaFunction params body { renameTable := .mk none [], counter := 0, phiFunctions := [] } with
  | error msg => simp only [hf] at h; exact absurd h (by simp)
  | ok pr =>
    obtain ⟨body1, s4⟩ := pr
    simp only [hf, Except.ok.injEq] at h
    subst h
    simp only [ssaFunction, ssaBlock] at hf
    cases hl : ssaStatementList body (List.foldl (fun acc p => { acc with renameTable := acc.renameTable.update p p }) (ssaPush { renameTable := RenameTable.mk none [], counter := 0, phiFunctions := [] }) params) with
    | error msg => simp only [hl] at hf; exact absurd hf (by simp)
    | ok pl =>
      obtain ⟨stmts1, s1⟩ := pl
      simp only [hl] at hf
      have hseed := ssaSeed_foldl_fields params (ssaPush { renameTable := RenameTable.mk none [], counter := 0, phiFunctions := [] })
      obtain ⟨l1, l2, l3, l4⟩ := ssaStatementList_inv body _ stmts1 s1 hseed.2 hl
      have l3' := FreshSeg.mono _ _ _ 0 _ l3 (Nat.zero_le _) (le_refl _)
      cases hp : ssaBlockPhase2 stmts1 s1 with
      | error msg => simp only [hp] at hf; exact absurd hf (by simp)
      | ok pq =>
        obtain ⟨stmts2, s3⟩ := pq
        simp only [hp] at hf
        obtain ⟨p1, p2, p3, p4, p5, p6⟩ := ssaBlockPhase2_inv stmts1 s1 stmts2 s3 0 (Nat.zero_le _) hp l3'.1 l3'.2
        cases hpop : ssaPop s3 with
        | error msg => simp only [hpop] at hf; exact absurd hf (by simp)
        | ok pw =>
          obtain ⟨t, s5⟩ := pw
          simp only [hpop, Except.ok.injEq, Prod.mk.injEq] at hf
          obtain ⟨hb1, _⟩ := hf
          subst hb1
          exact ⟨p5, List.Nodup.of_map placeId p5⟩

set_option maxHeartbeats 1600000 in
/-- Witness for C6: the SSA output of the `phiBody` scenario has pairwise
distinct assignment places `x$0, x$1, x$2, x$3`. -/
theorem ssa_single_assignment_witness :
    runSsaFunction [symC, symA, symB] phiBody = .ok phiSsaOut ∧
    ((placesList phiSsaOut).map placeId).Nodup ∧ (placesList phiSsaOut).Nodup := by
  have h : runSsaFunction [symC, symA, symB] phiBody = .ok phiSsaOut := phiBody_ssa_eval
  obtain ⟨h1, h2⟩ := ssa_single_assignment.2.2 [symC, symA, symB] phiBody phiSsaOut h
  exact ⟨h, h1, h2⟩

set_option maxHeartbeats 1600000 in
/-- C9.  The φ-construction is total only when every write-set symbol has a
binding reachable from both popped frames: whenever some symbol of the list
has no binding in one of the two frames (local mapping and parent chain
included), `phiLoop` aborts with the source's `expect` panic (modelled as an
`Except.error`), not a handler diagnostic (first conjunct); concretely, for
`function f(c: bool) -> u8 { if c { let z: u8 = 1u8; } return 0u8; }`, where
`z` is first defined inside one branch and nowhere before, the pass aborts
with the panic message `Symbol z should exist in the program.` (second
conjunct). -/
theorem ssa_one_sided_definition_panics :
    (∀ (cond : Expression) (iT eT : RenameTable) (syms : List Sym) (s : SsaState),
      (∃ sym ∈ syms, iT.lookup sym = none ∨ eT.lookup sym = none) →
      ∃ msg, phiLoop cond iT eT syms s = .error msg) ∧
    runSsaFunction [symC] oneSidedBody = .error "Symbol z should exist in the program." := by
  refine ⟨?_, rfl⟩
  intro cond iT eT syms s
  induction syms generalizing s with
  | nil =>
    intro hex
    obtain ⟨sym, hmem, _⟩ := hex
    exact absurd hmem (List.not_mem_nil sym)
  | cons sym0 rest ih =>
    intro hex
    rw [phiLoop]
    cases hif : iT.lookup sym0 with
    | none => exact ⟨_, rfl⟩
    | some ifName =>
      cases hel : eT.lookup sym0 with
      | none => exact ⟨_, rfl⟩
      | some elseName =>
        obtain ⟨sym, hmem, hor⟩ := hex
        rcases List.mem_cons.mp hmem with rfl | hmem2
        · rcases hor with h0 | h0
          · rw [hif] at h0; exact absurd h0 (by simp)
          · rw [hel] at h0; exact absurd h0 (by simp)
        · simp only [getUniqueId]
          exact ih _ ⟨sym, hmem2, hor⟩

/-- Witness for C9: a frame pair in which `z` is bound only on the if side
makes the φ-construction abort. -/
theorem ssa_one_sided_definition_panics_witness :
    ∃ msg, phiLoop (.ident symC) (.mk none [(symZ, Sym.dollar symZ 0)]) (.mk none [])
      [symZ] { renameTable := .mk none [], counter := 1, phiFunctions := [] } = .error msg :=
  ssa_one_sided_definition_panics.1 (.ident symC) (.mk none [(symZ, Sym.dollar symZ 0)])
    (.mk none []) [symZ] { renameTable := .mk none [], counter := 1, phiFunctions := [] }
    ⟨symZ, List.mem_singleton.mpr rfl, Or.inr rfl⟩

/-! ## Record validation: helper lemmas -/

/-- Membership of a `RequiredRecordVariable` error in one `check_has_field`
result. -/
theorem mem_checkHasField_required (members : List (Sym × Ty))
    (need expected need' expected' : _) :
    TCErr.requiredRecordVariable need expected ∈ checkHasField members need' expected' ↔
      (need = need' ∧ expected = expected' ∧
        members.find? (fun m => m.1 == need') = none) := by
  unfold checkHasField
  rcases h : members.find? (fun m => m.1 == need') with _ | mem
  · simp only [h, List.mem_singleton, TCErr.requiredRecordVariable.injEq]
    simp
  · simp only [h]
    split_ifs with ht
    · simp [h]
    · simp [h]

/-- Membership of a `RecordVariableWrongType` error in one `check_has_field`
result. -/
theorem mem_checkHasField_wrong (members : List (Sym × Ty))
    (fname expected need' expected' : _) :
    TCErr.recordVarWrongType fname expected ∈ checkHasField members need' expected' ↔
      (expected = expected' ∧ ∃ mem, members.find? (fun m => m.1 == need') = some mem ∧
        mem.1 = fname ∧ expected' ≠ mem.2) := by
  unfold checkHasField
  rcases h : members.find? (fun m => m.1 == need') with _ | mem
  · simp [h]
  · simp only [h]
    split_ifs with ht
    · rw [beq_iff_eq] at ht
      simp only [List.not_mem_nil, false_iff]
      rintro ⟨-, mem', hm, -, hne⟩
      rw [Option.some.injEq] at hm
      exact hne (hm ▸ ht)
    · rw [beq_iff_eq] at ht
      constructor
      · intro hmem
        rw [List.mem_singleton, TCErr.recordVarWrongType.injEq] at hmem
        exact ⟨hmem.2, mem, rfl, hmem.1.symm, ht⟩
      · rintro ⟨he, mem', hm, hf, -⟩
        rw [Option.some.injEq] at hm
        subst hm he
        rw [List.mem_singleton, TCErr.recordVarWrongType.injEq]
        exact ⟨hf.symm, rfl⟩

/-- The `find?` of a member predicate only returns members with that name. -/
theorem find_member_name (members : List (Sym × Ty)) (need : Sym) (mem : Sym × Ty)
    (h : members.find? (fun m => m.1 == need) = some mem) : mem.1 = need := by
  have := List.find?_some h
  simpa using this

/-- C8.  For every record declaration, `visit_circuit` emits
`RequiredRecordVariable` exactly when no member named `owner` (resp. `gates`)
exists, emits `RecordVariableWrongType` exactly when the member found under
that name has a type other than `Address` (resp. `U64`), and accepts — with no
errors at all — a record carrying both members with the right types plus
additional members: `record R { owner: address, gates: u64, extra: u8 }`
passes while `record R { owner: u8, gates: u64 }` fails with
`RecordVariableWrongType`. -/
theorem record_member_validation :
    (∀ (n : Sym) (members : List (Sym × Ty)),
      (TCErr.requiredRecordVariable symOwner .address ∈ visitCircuit ⟨n, true, members⟩ ↔
        members.find? (fun m => m.1 == symOwner) = none)
      ∧ (TCErr.requiredRecordVariable symGates .u64 ∈ visitCircuit ⟨n, true, members⟩ ↔
        members.find? (fun m => m.1 == symGates) = none)
      ∧ (TCErr.recordVarWrongType symOwner .address ∈ visitCircuit ⟨n, true, members⟩ ↔
        ∃ mem, members.find? (fun m => m.1 == symOwner) = some mem ∧ mem.2 ≠ .address)
      ∧ (TCErr.recordVarWrongType symGates .u64 ∈ visitCircuit ⟨n, true, members⟩ ↔
        ∃ mem, members.find? (fun m => m.1 == symGates) = some mem ∧ mem.2 ≠ .u64))
    ∧ visitCircuit ⟨.src "R", true,
        [(symOwner, .address), (symGates, .u64), (.src "extra", .u8)]⟩ = []
    ∧ visitCircuit ⟨.src "R", true, [(symOwner, .u8), (symGates, .u64)]⟩
        = [.recordVarWrongType symOwner .address] := by
  refine ⟨?_, rfl, rfl⟩
  intro n members
  have hexp : visitCircuit ⟨n, true, members⟩ =
      (if (members.map (fun m => m.1)).Nodup then [] else [.duplicateRecordVariable n])
      ++ (checkHasField members symOwner .address ++ checkHasField members symGates .u64)
      ++ (members.filter (fun m => match m.2 with | .tuple => true | _ => false)).map
          (fun m => .tupleNotAllowed m.1) := by
    simp [visitCircuit]
  refine ⟨?_, ?_, ?_, ?_⟩
  · rw [hexp]
    simp only [List.mem_append, mem_checkHasField_required, List.mem_map]
    constructor
    · rintro ((hdup | ⟨-, -, hf⟩ | ⟨habs, -⟩) | htup)
      · exfalso; revert hdup; split_ifs <;> simp
      · exact hf
      · exact absurd habs (by simp [symOwner, symGates])
      · exfalso; rcases htup with ⟨m, -, heq⟩; exact TCErr.noConfusion heq
    · intro hf
      exact Or.inl (Or.inr (Or.inl ⟨trivial, trivial, hf⟩))
  · rw [hexp]
    simp only [List.mem_append, mem_checkHasField_required, List.mem_map]
    constructor
    · rintro ((hdup | ⟨habs, -⟩ | ⟨-, -, hf⟩) | htup)
      · exfalso; revert hdup; split_ifs <;> simp
      · exact absurd habs (by simp [symOwner, symGates])
      · exact hf
      · exfalso; rcases htup with ⟨m, -, heq⟩; exact TCErr.noConfusion heq
    · intro hf
      exact Or.inl (Or.inr (Or.inr ⟨trivial, trivial, hf⟩))
  · rw [hexp]
    simp only [List.mem_append, mem_checkHasField_wrong, List.mem_map]
    constructor
    · rintro ((hdup | ⟨-, mem, hf, -, hne⟩ | ⟨habs, -⟩) | htup)
      · exfalso; revert hdup; split_ifs <;> simp
      · exact ⟨mem, hf, fun hh => hne hh.symm⟩
      · exact absurd habs (by simp)
      · exfalso; rcases htup with ⟨m, -, heq⟩; exact TCErr.noConfusion heq
    · rintro ⟨mem, hf, hne⟩
      exact Or.inl (Or.inr (Or.inl
        ⟨trivial, mem, hf, find_member_name members symOwner mem hf, fun hh => hne hh.symm⟩))
  · rw [hexp]
    simp only [List.mem_append, mem_checkHasField_wrong, List.mem_map]
    constructor
    · rintro ((hdup | ⟨habs, -⟩ | ⟨-, mem, hf, -, hne⟩) | htup)
      · exfalso; revert hdup; split_ifs <;> simp
      · exact absurd habs (by simp)
      · exact ⟨mem, hf, fun hh => hne hh.symm⟩
      · exfalso; rcases htup with ⟨m, -, heq⟩; exact TCErr.noConfusion heq
    · rintro ⟨mem, hf, hne⟩
      exact Or.inl (Or.inr (Or.inr
        ⟨trivial, mem, hf, find_member_name members symGates mem hf, fun hh => hne hh.symm⟩))

/-! ## Dead-code elimination: helper lemmas -/

/-- DCE expression reduction rebuilds the expression unchanged and preserves
the critical flag. -/
theorem dceExpression_fst (e : Expression) (s : DceState) :
    (dceExpression e s).1 = e ∧ (dceExpression e s).2.isCritical = s.isCritical := by
  induction e generalizing s with
  | ident x =>
    refine ⟨rfl, ?_⟩
    simp only [dceExpression]
    split
    · simp [DceState.mark, DceState.isCritical]
      split <;> rfl
    · rfl
  | value v => exact ⟨rfl, rfl⟩
  | binary op l r ihl ihr =>
    simp only [dceExpression]
    rw [(Prod.mk.eta (p := dceExpression l s)).symm, (Prod.mk.eta (p := dceExpression r _)).symm]
    exact ⟨by rw [(ihl s).1, (ihr _).1], by rw [(ihr _).2, (ihl s).2]⟩
  | unary op e ih =>
    simp only [dceExpression]
    rw [(Prod.mk.eta (p := dceExpression e s)).symm]
    exact ⟨by rw [(ih s).1], (ih s).2⟩
  | ternary c t f ihc iht ihf =>
    simp only [dceExpression]
    rw [(Prod.mk.eta (p := dceExpression c s)).symm, (Prod.mk.eta (p := dceExpression t _)).symm,
      (Prod.mk.eta (p := dceExpression f _)).symm]
    exact ⟨by rw [(ihc s).1, (iht _).1, (ihf _).1],
      by rw [(ihf _).2, (iht _).2, (ihc s).2]⟩
  | err => exact ⟨rfl, rfl⟩

/-- With the critical flag unset, DCE expression reduction changes nothing. -/
theorem dceExpression_not_critical (e : Expression) (s : DceState)
    (h : s.isCritical = false) : (dceExpression e s).2 = s := by
  induction e generalizing s with
  | ident x => simp [dceExpression, h]
  | value v => rfl
  | binary op l r ihl ihr =>
    simp only [dceExpression]
    rw [(Prod.mk.eta (p := dceExpression l s)).symm, (Prod.mk.eta (p := dceExpression r _)).symm]
    rw [ihl s h, ihr s h]
  | unary op e ih =>
    simp only [dceExpression]
    rw [(Prod.mk.eta (p := dceExpression e s)).symm, ih s h]
  | ternary c t f ihc iht ihf =>
    simp only [dceExpression]
    rw [(Prod.mk.eta (p := dceExpression c s)).symm]
    rw [ihc s h]
    rw [(Prod.mk.eta (p := dceExpression t s)).symm, iht s h]
    rw [(Prod.mk.eta (p := dceExpression f s)).symm, ihf s h]
  | err => rfl

/-- With the critical flag set, DCE expression reduction marks exactly the
identifiers of the expression (on top of the existing marks). -/
theorem dceExpression_critical_marks (e : Expression) (s : DceState)
    (h : s.isCritical = true) :
    ∀ y, (dceExpression e s).2.isMarked y =
      (s.isMarked y || (identsOf e).contains y) := by
  induction e generalizing s with
  | ident x =>
    intro y
    simp only [dceExpression, h, if_true, identsOf, DceState.mark]
    split
    · rename_i hc
      by_cases hxy : y = x
      · subst hxy
        simp only [DceState.isMarked] at hc ⊢
        simp_all
      · simp only [DceState.isMarked]
        simp [hxy]
    · by_cases hxy : y = x
      · subst hxy
        simp [DceState.isMarked, List.mem_append]
      · simp [DceState.isMarked, List.mem_append, hxy]
  | value v => intro y; simp [dceExpression, identsOf]
  | binary op l r ihl ihr =>
    intro y
    simp only [dceExpression, identsOf]
    rw [(Prod.mk.eta (p := dceExpression l s)).symm, (Prod.mk.eta (p := dceExpression r _)).symm]
    rw [ihr _ (by rw [(dceExpression_fst l s).2, h]) y, ihl s h y]
    simp [List.mem_append, Bool.decide_or, Bool.or_assoc]
  | unary op e ih =>
    intro y
    simp only [dceExpression, identsOf]
    rw [(Prod.mk.eta (p := dceExpression e s)).symm, ih s h y]
  | ternary c t f ihc iht ihf =>
    intro y
    simp only [dceExpression, identsOf]
    rw [(Prod.mk.eta (p := dceExpression c s)).symm, (Prod.mk.eta (p := dceExpression t _)).symm,
      (Prod.mk.eta (p := dceExpression f _)).symm]
    rw [ihf _ (by rw [(dceExpression_fst t _).2, (dceExpression_fst c s).2, h]) y,
      iht _ (by rw [(dceExpression_fst c s).2, h]) y, ihc s h y]
    simp [List.mem_append, Bool.decide_or, Bool.or_assoc]
  | err => intro y; simp [dceExpression, identsOf]

/-- `dceExpressionList` analogue of the previous two lemmas. -/
theorem dceExpressionList_inv (args : List Expression) (s : DceState)
    (h : s.isCritical = true) :
    (dceExpressionList args s).1 = args ∧
    (dceExpressionList args s).2.isCritical = true ∧
    ∀ y, (dceExpressionList args s).2.isMarked y =
      (s.isMarked y || ((args.map identsOf).flatten).contains y) := by
  induction args generalizing s with
  | nil => exact ⟨rfl, h, fun y => by simp [dceExpressionList]⟩
  | cons e rest ih =>
    simp only [dceExpressionList]
    rw [(Prod.mk.eta (p := dceExpression e s)).symm,
      (Prod.mk.eta (p := dceExpressionList rest _)).symm]
    have h1 := (dceExpression_fst e s).2
    rw [h] at h1
    obtain ⟨ih1, ih2, ih3⟩ := ih (dceExpression e s).2 h1
    refine ⟨by rw [(dceExpression_fst e s).1, ih1], ih2, fun y => ?_⟩
    rw [ih3 y, dceExpression_critical_marks e s h y]
    simp [List.mem_append, Bool.decide_or, Bool.or_assoc]

/-- `dceConsole` rebuilds the call unchanged and marks exactly its argument
identifiers when critical. -/
theorem dceConsole_inv (f : ConsoleFunction) (s : DceState) (h : s.isCritical = true) :
    (dceConsole f s).1 = f ∧ (dceConsole f s).2.isCritical = true ∧
    ∀ y, (dceConsole f s).2.isMarked y =
      (s.isMarked y || (identsOfConsole f).contains y) := by
  cases f with
  | assert e =>
    simp only [dceConsole, identsOfConsole]
    rw [(Prod.mk.eta (p := dceExpression e s)).symm]
    exact ⟨by rw [(dceExpression_fst e s).1], by rw [(dceExpression_fst e s).2, h],
      dceExpression_critical_marks e s h⟩
  | error args =>
    simp only [dceConsole, identsOfConsole]
    rw [(Prod.mk.eta (p := dceExpressionList args s)).symm]
    obtain ⟨h1, h2, h3⟩ := dceExpressionList_inv args s h
    exact ⟨by rw [h1], h2, h3⟩
  | log args =>
    simp only [dceConsole, identsOfConsole]
    rw [(Prod.mk.eta (p := dceExpressionList args s)).symm]
    obtain ⟨h1, h2, h3⟩ := dceExpressionList_inv args s h
    exact ⟨by rw [h1], h2, h3⟩

/-- The marking effect of one flat statement, as claimed: a return or console
statement marks the identifiers of its expressions; an assignment whose place
is marked marks the identifiers of its value; an unmarked assignment marks
nothing; the statement itself is rebuilt unchanged and the flag ends unset. -/
theorem dceStatement_flat (stmt : Statement) (s : DceState)
    (hflat : flatStmt stmt = true) (hcrit : s.isCritical = false) :
    (dceStatement stmt s).1 = stmt ∧ (dceStatement stmt s).2.isCritical = false ∧
    ∀ y, (dceStatement stmt s).2.isMarked y =
      (s.isMarked y || specStmtMarks stmt s.isMarked y) := by
  simp only [specStmtMarks]
  cases stmt with
  | ret e =>
    simp only [dceStatement]
    rw [(Prod.mk.eta (p := dceExpression e s.setCritical)).symm]
    refine ⟨by rw [(dceExpression_fst e _).1], rfl, fun y => ?_⟩
    have := dceExpression_critical_marks e s.setCritical rfl y
    simpa [DceState.unsetCritical, DceState.setCritical, DceState.isMarked] using this
  | console f =>
    simp only [dceStatement]
    rw [(Prod.mk.eta (p := dceConsole f s.setCritical)).symm]
    obtain ⟨h1, h2, h3⟩ := dceConsole_inv f s.setCritical rfl
    refine ⟨by rw [h1], rfl, fun y => ?_⟩
    have := h3 y
    simpa [DceState.unsetCritical, DceState.setCritical, DceState.isMarked] using this
  | assign op x v =>
    simp only [dceStatement]
    rw [(Prod.mk.eta (p := dceExpression (.ident x) s)).symm]
    rw [dceExpression_not_critical (.ident x) s hcrit]
    by_cases hm : s.isMarked x
    · rw [if_pos hm]
      rw [(Prod.mk.eta (p := dceExpression v s.setCritical)).symm]
      refine ⟨by rw [(dceExpression_fst v _).1], rfl, fun y => ?_⟩
      have hmv := dceExpression_critical_marks v s.setCritical rfl y
      have hm' : decide (x ∈ s.marked) = true := by
        simpa [DceState.isMarked] using hm
      simp only [DceState.unsetCritical, DceState.setCritical, DceState.isMarked] at hmv ⊢
      simp only [hmv]
      simp [hm']
    · rw [if_neg hm]
      rw [(Prod.mk.eta (p := dceExpression v s)).symm]
      rw [dceExpression_not_critical v s hcrit]
      refine ⟨by rw [(dceExpression_fst v _).1], rfl, fun y => ?_⟩
      simp only [DceState.unsetCritical, DceState.isMarked]
      simp [DceState.isMarked] at hm
      simp [hm]
  | definition x ty v => simp [flatStmt] at hflat
  | conditional c blk next => simp [flatStmt] at hflat
  | block stmts => simp [flatStmt] at hflat

/-- C5.  The DCE block walk equals the claim's mark/sweep reading: walking the
statements in reverse, every `Return` and `Console` statement is kept and the
identifiers of its expressions are marked; an assignment is kept exactly when
its place is marked at the moment it is visited (its value's identifiers then
being marked too) and is dropped otherwise.  `specDceWalk` is that reading over
an abstract mark predicate; it agrees with the pass on every flat (post-SSA)
block.  For `f(a: u8) -> u8 { let x: u8 = a + 1u8; let y: u8 = x + 2u8;
return a; }` (post-SSA: assignments `x$0`, `y$1`), DCE leaves only
`return a;`. -/
theorem dce_mark_sweep :
    (∀ (stmts : List Statement) (s : DceState) (m : Sym → Bool),
        (∀ st ∈ stmts, flatStmt st = true) → s.isCritical = false →
        (∀ y, s.isMarked y = m y) →
        ∃ kept s' m', dceBlockGo stmts s = .ok (kept, s') ∧
          specDceWalk stmts m = some (kept, m') ∧
          s'.isCritical = false ∧ ∀ y, s'.isMarked y = m' y)
    ∧ runDce deadBody = .ok [.ret (.ident symA)] := by
  constructor
  · intro stmts
    induction stmts with
    | nil =>
      intro s m hflat hcrit hmark
      exact ⟨[], s, m, rfl, rfl, hcrit, hmark⟩
    | cons stmt rest ih =>
      intro s m hflat hcrit hmark
      obtain ⟨keptRest, s1, m1, hgo, hspec, hcrit1, hmark1⟩ :=
        ih s m (fun st hst => hflat st (List.mem_cons_of_mem _ hst)) hcrit hmark
      have hstmt := dceStatement_flat stmt s1 (hflat stmt (List.mem_cons_self _ _)) hcrit1
      rcases hds : dceStatement stmt s1 with ⟨stmt1, s2⟩
      rw [hds] at hstmt
      dsimp only at hstmt
      obtain ⟨hs1, hs2, hs3⟩ := hstmt
      subst hs1
      cases stmt1 with
      | ret e =>
        refine ⟨.ret e :: keptRest, s2, markIdents e m1, ?_, ?_, hs2, ?_⟩
        · simp only [dceBlockGo, hgo, hds]
        · simp only [specDceWalk, hspec]
        · intro y
          rw [hs3 y]
          simp only [specStmtMarks, hmark1 y]
          rfl
      | console f =>
        refine ⟨.console f :: keptRest, s2, markConsole f m1, ?_, ?_, hs2, ?_⟩
        · simp only [dceBlockGo, hgo, hds]
        · simp only [specDceWalk, hspec]
        · intro y
          rw [hs3 y]
          simp only [specStmtMarks, hmark1 y]
          rfl
      | assign op x v =>
        have hkeep : s2.isMarked x = m1 x := by
          rw [hs3 x]
          simp only [specStmtMarks, hmark1 x]
          cases hx : m1 x <;> simp [hx]
        by_cases hx : m1 x = true
        · refine ⟨.assign op x v :: keptRest, s2, markIdents v m1, ?_, ?_, hs2, ?_⟩
          · simp only [dceBlockGo, hgo, hds, hkeep, hx, if_true]
          · simp only [specDceWalk, hspec, hx, if_true]
          · intro y
            rw [hs3 y]
            simp only [specStmtMarks, hmark1 y, hmark1 x, hx]
            simp [markIdents]
        · have hx' : m1 x = false := by simpa using hx
          refine ⟨keptRest, s2, m1, ?_, ?_, hs2, ?_⟩
          · simp only [dceBlockGo, hgo, hds, hkeep, hx', Bool.false_eq_true, if_false]
          · simp only [specDceWalk, hspec, hx', Bool.false_eq_true, if_false]
          · intro y
            rw [hs3 y]
            simp only [specStmtMarks, hmark1 y, hmark1 x, hx']
            simp
      | definition x ty v =>
        exact absurd (hflat _ (List.mem_cons_self _ _)) (by simp [flatStmt])
      | conditional c blk next =>
        exact absurd (hflat _ (List.mem_cons_self _ _)) (by simp [flatStmt])
      | block stmts2 =>
        exact absurd (hflat _ (List.mem_cons_self _ _)) (by simp [flatStmt])
  · rfl

/-- Witness for C5: the mark/sweep agreement applied to the dead-intermediate
scenario body from its fresh pass state. -/
theorem dce_mark_sweep_witness :
    ∃ kept s' m', dceBlockGo deadBody { marked := [], isCritical := false } = .ok (kept, s') ∧
      specDceWalk deadBody (fun _ => false) = some (kept, m') ∧
      s'.isCritical = false ∧ ∀ y, s'.isMarked y = m' y :=
  dce_mark_sweep.1 deadBody { marked := [], isCritical := false } (fun _ => false)
    (by decide) rfl (fun y => rfl)

/-- C10.  On every flat (post-SSA) block, DCE neither creates, duplicates nor
reorders statements: it succeeds and its output is a sublist — the surviving
statements unchanged, in their original relative order — of the input. -/
theorem dce_output_sublist :
    ∀ (stmts : List Statement) (s : DceState),
      (∀ st ∈ stmts, flatStmt st = true) → s.isCritical = false →
      ∃ kept s', dceBlockGo stmts s = .ok (kept, s') ∧
        kept.Sublist stmts ∧ s'.isCritical = false := by
  intro stmts
  induction stmts with
  | nil =>
    intro s hflat hcrit
    exact ⟨[], s, rfl, List.Sublist.refl [], hcrit⟩
  | cons stmt rest ih =>
    intro s hflat hcrit
    obtain ⟨keptRest, s1, hgo, hsub, hcrit1⟩ :=
      ih s (fun st hst => hflat st (List.mem_cons_of_mem _ hst)) hcrit
    have hstmt := dceStatement_flat stmt s1 (hflat stmt (List.mem_cons_self _ _)) hcrit1
    rcases hds : dceStatement stmt s1 with ⟨stmt1, s2⟩
    rw [hds] at hstmt
    dsimp only at hstmt
    obtain ⟨hs1, hs2, -⟩ := hstmt
    subst hs1
    cases stmt1 with
    | ret e =>
      exact ⟨.ret e :: keptRest, s2, by simp only [dceBlockGo, hgo, hds],
        List.Sublist.cons₂ _ hsub, hs2⟩
    | console f =>
      exact ⟨.console f :: keptRest, s2, by simp only [dceBlockGo, hgo, hds],
        List.Sublist.cons₂ _ hsub, hs2⟩
    | assign op x v =>
      by_cases hx : s2.isMarked x = true
      · exact ⟨.assign op x v :: keptRest, s2,
          by simp only [dceBlockGo, hgo, hds, hx, if_true],
          List.Sublist.cons₂ _ hsub, hs2⟩
      · have hx' : s2.isMarked x = false := by simpa using hx
        exact ⟨keptRest, s2,
          by simp only [dceBlockGo, hgo, hds, hx', Bool.false_eq_true, if_false],
          List.Sublist.cons _ hsub, hs2⟩
    | definition x ty v =>
      exact absurd (hflat _ (List.mem_cons_self _ _)) (by simp [flatStmt])
    | conditional c blk next =>
      exact absurd (hflat _ (List.mem_cons_self _ _)) (by simp [flatStmt])
    | block stmts2 =>
      exact absurd (hflat _ (List.mem_cons_self _ _)) (by simp [flatStmt])

/-- Witness for C10: the dead-intermediate scenario body — DCE succeeds on it
and returns a sublist of it. -/
theorem dce_output_sublist_witness :
    ∃ kept s', dceBlockGo deadBody { marked := [], isCritical := false } = .ok (kept, s') ∧
      kept.Sublist deadBody ∧ s'.isCritical = false :=
  dce_output_sublist deadBody { marked := [], isCritical := false } (by decide) rfl

/-- C7 (counterexample).  A conditional whose `else` arm is itself a
conditional survives one application of the flattening pass (the spliced
`*next` statement is pushed unflattened), so applying the pass twice changes
the program again: the pass is not idempotent. -/
theorem flatten_conditionals_not_idempotent :
    flattenBlock (flattenBlock
      [ .conditional (.ident symC)
          [ .assign .assign symX (.ident symA) ]
          (some (.conditional (.ident symB)
            [ .assign .assign symX (.ident symB) ] none)) ]) ≠
    flattenBlock
      [ .conditional (.ident symC)
          [ .assign .assign symX (.ident symA) ]
          (some (.conditional (.ident symB)
            [ .assign .assign symX (.ident symB) ] none)) ] := by
  have h1 : flattenBlock
      [ .conditional (.ident symC)
          [ .assign .assign symX (.ident symA) ]
          (some (.conditional (.ident symB)
            [ .assign .assign symX (.ident symB) ] none)) ] =
      [ .assign .assign symX (.ident symA)
      , .conditional (.ident symB) [ .assign .assign symX (.ident symB) ] none ] := rfl
  intro h
  rw [h1] at h
  have h2 : flattenBlock
      [ .assign .assign symX (.ident symA)
      , .conditional (.ident symB) [ .assign .assign symX (.ident symB) ] none ] =
      [ .assign .assign symX (.ident symA), .assign .assign symX (.ident symB) ] := rfl
  rw [h2] at h
  simp at h

/-- C7 (amended).  A single application of the flattening pass removes every
conditional except those arriving through the `next` (else) arm of another
conditional; consequently, on programs with no conditional `next` arm (no
`else if` chain) one application already removes every conditional and the
pass is idempotent there.  (The unrestricted claim is refuted by
`flatten_conditionals_not_idempotent`.) -/
theorem flatten_conditionals_idempotent_no_else_if :
    (∀ l : List Statement, noCondNextList l = true →
        condFreeList (flattenBlock l) = true) ∧
    (∀ l : List Statement, noCondNextList l = true →
        flattenBlock (flattenBlock l) = flattenBlock l) := by
  constructor
  · intro l h
    exact noCondNext_condFree_list l h
  · intro l h
    have hcf : condFreeList (flattenBlock l) = true := noCondNext_condFree_list l h
    show flattenSplice (flattenStatementList (flattenBlock l)) = flattenBlock l
    rw [condFree_flattenStatementList _ hcf, condFree_flattenSplice _ hcf]

/-- Witness for C7 (amended): the scenario block of the φ example — an `if`
with a plain `else` block — has no `else if` chain, and flattening it twice
equals flattening it once. -/
theorem flatten_conditionals_idempotent_no_else_if_witness :
    flattenBlock (flattenBlock
      [ .conditional (.ident symC)
          [ .assign .assign symX (.ident symA) ]
          (some (.block [ .assign .assign symX (.ident symB) ])) ]) =
    flattenBlock
      [ .conditional (.ident symC)
          [ .assign .assign symX (.ident symA) ]
          (some (.block [ .assign .assign symX (.ident symB) ])) ] :=
  flatten_conditionals_idempotent_no_else_if.2
    [ .conditional (.ident symC)
        [ .assign .assign symX (.ident symA) ]
        (some (.block [ .assign .assign symX (.ident symB) ])) ] rfl

end LeoMidend
